import Mathlib

/-!
Verification of the next-prune core against its natural-language specification.

The development shallowly embeds the TypeScript core of the repository:

* `src/core/config.ts` — path-pattern normalization and config pattern matching
* `src/core/candidates.ts` (both documents) — cleanup-scope parsing and the
  artifact scanner (`scanArtifacts`, `addCandidate`, `scanDirectory`)
* `src/core/asset-scanner.ts` — unused-asset resolution
* the workspace resolver (`normalizeWorkspacePattern`, `parsePnpmWorkspacePatterns`)
* the deletion engine (`deleteItem`, `deleteItems`, `summarizeDeletionResults`)

Strings are modelled as Lean `String`s, with the character-level processing done
on `List Char`.  JavaScript `number` values that carry sizes are modelled as
`Float` (so that non-finite values are representable); counters are `Nat`.
Filesystem effects are modelled by an explicit record of oracle functions
(`FS`): each `await`ed syscall of the source becomes a lookup in the oracle,
errors (`try`/`catch`) become `Option.none`.  The JavaScript concurrency
(`Promise.all`) is serialized in program order; the theorems proved here are
order-insensitive facts about the shared discovered-candidates map, which the
source mutates only in synchronous sections.

The file is laid out as definitions first, then theorems.
-/

namespace NextPrune

/-! ## JavaScript string primitives -/

/-- The whitespace characters recognised by JavaScript's `String.prototype.trim`
and `\s` (the ASCII ones plus NBSP and BOM; this is the subset relevant to the
inputs handled by the tool). -/
def isJsWs (c : Char) : Bool :=
  c = ' ' || c = '\t' || c = '\n' || c = '\r' ||
  c = '\x0b' || c = '\x0c' || c = ' ' || c = '﻿'

/-- `value.trim()` on a character list. -/
def jsTrimL (l : List Char) : List Char :=
  (l.dropWhile isJsWs).reverse.dropWhile isJsWs |>.reverse

/-- `value.trim()`. -/
def jsTrim (s : String) : String :=
  (jsTrimL s.toList).asString

/-- Split a character list at every occurrence of the separator character,
keeping empty pieces (the semantics of JavaScript `String.prototype.split` with
a single-character separator). -/
def splitOnChar (sep : Char) : List Char → List (List Char)
  | [] => [[]]
  | c :: rest =>
    let r := splitOnChar sep rest
    if c = sep then [] :: r
    else
      match r with
      | [] => [[c]]
      | piece :: pieces => (c :: piece) :: pieces

/-- Join character-list segments with a separator character. -/
def joinChar (sep : Char) : List (List Char) → List Char
  | [] => []
  | [s] => s
  | s :: rest => s ++ sep :: joinChar sep rest

/-- `haystack.includes(needle)` (substring test), on character lists:
some suffix of the haystack has the needle as a prefix. -/
def containsSub (needle : List Char) : List Char → Bool
  | [] => needle.isPrefixOf []
  | c :: rest => needle.isPrefixOf (c :: rest) || containsSub needle rest

/-- `haystack.includes(needle)` on strings. -/
def strIncludes (haystack needle : String) : Bool :=
  containsSub needle.toList haystack.toList

/-- `value.startsWith(prefixValue)` on strings, via character lists. -/
def strStartsWith (s prefixValue : String) : Bool :=
  prefixValue.toList.isPrefixOf s.toList

/-- `value.toLowerCase()` (ASCII case folding, which covers every token the
cleanup-scope map can accept). -/
def jsToLower (s : String) : String :=
  (s.toList.map Char.toLower).asString

/-! ## Path normalization (`config.ts` `normalizePathPattern`,
`workspaces` `normalizeWorkspacePattern`, `candidates.ts`
`normalizeRelativeDirectory`)

The three sources share the same character-level steps; each step below embeds
one `replace` call of the source. -/

/-- `toPosixPath`: replace every backslash by a forward slash. -/
def bsToSlash (c : Char) : Char :=
  if c = '\\' then '/' else c

/-- `toPosixPath` on a character list. -/
def toPosixPathL (l : List Char) : List Char :=
  l.map bsToSlash

/-- `value.replace(/^\.\/+/, '')`: strip one leading `.` followed by a run of
slashes (the regex is anchored and non-global, so at most one match). -/
def stripDotSlash (l : List Char) : List Char :=
  match l with
  | c₁ :: c₂ :: rest =>
    if c₁ = '.' ∧ c₂ = '/' then rest.dropWhile (· = '/') else l
  | _ => l

/-- `value.replace(/^\/+/, '')`: strip all leading slashes. -/
def stripLeadingSlashes (l : List Char) : List Char :=
  l.dropWhile (· = '/')

/-- `value.replace(/\/+/g, '/')`: collapse runs of slashes. -/
def collapseSlashes : List Char → List Char
  | [] => []
  | [c] => [c]
  | c₁ :: c₂ :: rest =>
    if c₁ = '/' ∧ c₂ = '/' then collapseSlashes (c₂ :: rest)
    else c₁ :: collapseSlashes (c₂ :: rest)

/-- `value.replace(/\/+$/, '')`: strip all trailing slashes. -/
def stripTrailingSlashes (l : List Char) : List Char :=
  (l.reverse.dropWhile (· = '/')).reverse

/-- The `..` segment. -/
def ddSeg : List Char := ['.', '.']

/-- One step of Node's `path.posix.normalize` segment resolution
(`normalizeString`): skip `.`, resolve `..` against the last real segment,
keep `..` at the front only for relative paths (`allowAboveRoot`). -/
def posixStackStep (allowAboveRoot : Bool) (acc : List (List Char))
    (seg : List Char) : List (List Char) :=
  if seg = ['.'] then acc
  else if seg = ddSeg then
    if acc ≠ [] ∧ acc.getLast? ≠ some ddSeg then acc.dropLast
    else if allowAboveRoot then acc ++ [seg] else acc
  else acc ++ [seg]

/-- Node's segment resolution over a whole segment list. -/
def posixStack (allowAboveRoot : Bool) (segs : List (List Char)) :
    List (List Char) :=
  segs.foldl (posixStackStep allowAboveRoot) []

/-- `path.posix.normalize`, for inputs with no trailing slash (every call site
strips trailing slashes first, so the trailing-slash preservation of Node is
not reachable).  Empty segments are skipped, `.`/`..` are resolved, a relative
path with nothing left is `"."`, an absolute path keeps its leading `/`. -/
def posixNormalize (l : List Char) : List Char :=
  if l.head? = some '/' then
    '/' :: joinChar '/' (posixStack false ((splitOnChar '/' l).filter (· ≠ [])))
  else if posixStack true ((splitOnChar '/' l).filter (· ≠ [])) = [] then ['.']
  else joinChar '/' (posixStack true ((splitOnChar '/' l).filter (· ≠ [])))

/-- `/^[A-Za-z]/` for a single character. -/
def isAsciiLetter (c : Char) : Bool :=
  ('A' ≤ c && c ≤ 'Z') || ('a' ≤ c && c ≤ 'z')

/-- `/^[A-Za-z]:\//.test(value)`: a Windows drive prefix. -/
def hasDrivePrefix (l : List Char) : Bool :=
  match l with
  | a :: ':' :: '/' :: _ => isAsciiLetter a
  | _ => false

/-- The post-normalization rejection shared by `normalizePathPattern` and
`normalizeWorkspacePattern`:
`normalized === '..' || startsWith('../') || includes('/../') || /^[A-Za-z]:\//`. -/
def isRejectedNormalized (n : List Char) : Bool :=
  n == ddSeg || ['.', '.', '/'].isPrefixOf n ||
    containsSub ['/', '.', '.', '/'] n || hasDrivePrefix n

/-- Steps 3–6 of the normalizers: strip a leading `./`, strip leading slashes,
collapse slash runs, strip trailing slashes. -/
def cleanPattern (l : List Char) : List Char :=
  stripTrailingSlashes (collapseSlashes (stripLeadingSlashes (stripDotSlash l)))

/-- The shared body of `normalizePathPattern` (config.ts) and
`normalizeWorkspacePattern` (workspaces module) after trimming and backslash
replacement; the two sources duplicate these steps verbatim
(`normalizeWorkspacePattern` has `allowEmpty` fixed to `false`). -/
def normalizePatternCore (allowEmpty : Bool) (l : List Char) :
    Option (List Char) :=
  if l = [] then (if allowEmpty then some [] else none)
  else if cleanPattern l = [] ∨ cleanPattern l = ['.'] then
    (if allowEmpty then some [] else none)
  else if posixNormalize (cleanPattern l) = []
      ∨ posixNormalize (cleanPattern l) = ['.'] then
    (if allowEmpty then some [] else none)
  else if isRejectedNormalized (posixNormalize (cleanPattern l)) then none
  else some (posixNormalize (cleanPattern l))

/-- `normalizePathPattern` (config.ts); `none` models the `null` rejection. -/
def normalizePathPattern (allowEmpty : Bool) (value : String) : Option String :=
  (normalizePatternCore allowEmpty (toPosixPathL (jsTrimL value.toList))).map
    List.asString

/-- `normalizeConfigPattern` (config.ts); the `typeof pattern !== 'string'`
guard is absorbed by the typed argument. -/
def normalizeConfigPattern (pattern : String) : Option String :=
  normalizePathPattern false pattern

/-- `normalizeRelativePath` (config.ts). -/
def normalizeRelativePath (relativePath : String) : String :=
  (normalizePathPattern true relativePath).getD ""

/-- `matchesConfigPattern` (config.ts): prefix match on the normalized path
(the `!normalizedPattern` falsy test rejects both `null` and `''`). -/
def matchesConfigPattern (relativePath pattern : String) : Bool :=
  match normalizeConfigPattern pattern with
  | none => false
  | some normalizedPattern =>
    if normalizedPattern = "" then false
    else
      let normalizedRelativePath := normalizeRelativePath relativePath
      normalizedRelativePath == normalizedPattern ||
        strStartsWith normalizedRelativePath (normalizedPattern ++ "/")

/-- `normalizeWorkspacePattern` (workspaces module): a leading `!` negation
marker is preserved and the remainder goes through the shared steps.  The
source's single flow over an `isNegated` flag is flattened into two branches;
in the non-negated branch the source's second emptiness check
(`if (!normalized) return null`) is subsumed by the first. -/
def normalizeWorkspacePattern (value : String) : Option String :=
  if jsTrimL value.toList = [] then none
  else if (jsTrimL value.toList).head? = some '!' then
    if jsTrimL ((jsTrimL value.toList).drop 1) = [] then none
    else
      (normalizePatternCore false
        (toPosixPathL (jsTrimL ((jsTrimL value.toList).drop 1)))).map
        fun n => ('!' :: n).asString
  else
    (normalizePatternCore false (toPosixPathL (jsTrimL value.toList))).map
      List.asString

/-- The part of a normalized workspace pattern after its optional leading `!`
(used to state the amended idempotence claim). -/
def negStripL (l : List Char) : List Char :=
  if l.head? = some '!' then l.tail else l

/-! ## pnpm-workspace.yaml parsing (workspaces module,
`parsePnpmWorkspacePatterns`) -/

/-- `content.split(/\r?\n/)`: each `\n` separates, consuming one `\r`
immediately before it; a lone `\r` stays in its line. -/
def splitLinesJsL : List Char → List (List Char)
  | [] => [[]]
  | '\r' :: '\n' :: rest => [] :: splitLinesJsL rest
  | '\n' :: rest => [] :: splitLinesJsL rest
  | c :: rest =>
    match splitLinesJsL rest with
    | [] => [[c]]
    | p :: ps => (c :: p) :: ps

/-- `/^packages\s*:/.test(trimmed)`: the literal, optional whitespace, then a
colon (greedy `\s*` is deterministic since `\s` and `:` are disjoint). -/
def packagesKeyMatch (l : List Char) : Bool :=
  "packages".toList.isPrefixOf l &&
    ((l.drop 8).dropWhile isJsWs).head? == some ':'

/-- A character of the class `[A-Za-z0-9_-]`. -/
def isKeyChar (c : Char) : Bool :=
  isAsciiLetter c || ('0' ≤ c && c ≤ '9') || c = '_' || c = '-'

/-- `/^[A-Za-z0-9_-]+\s*:/.test(trimmed)` (greedy matching is deterministic
since the class, `\s`, and `:` are pairwise disjoint). -/
def topKeyMatch (l : List Char) : Bool :=
  !(l.takeWhile isKeyChar).isEmpty &&
    ((l.dropWhile isKeyChar).dropWhile isJsWs).head? == some ':'

/-- A quote character of the item regex (`"` or `'`). -/
def isQuoteChar (c : Char) : Bool :=
  c = '"' || c = '\''

/-- `["']?\s*$`: the closing part of the item regex, optional quote tried
consume-first. -/
def itemCloseMatch (l : List Char) : Bool :=
  match l with
  | [] => true
  | c :: rest => (isQuoteChar c && rest.all isJsWs) || (c :: rest).all isJsWs

/-- The capture group `([^"']+)` followed by `["']?\s*$`: greedy with
backtracking — extend the capture as far as possible, falling back to shorter
captures; `accRev` holds the reversed capture so far, and a successful match
requires a nonempty capture. -/
def itemCaptureMatch (accRev : List Char) : List Char → Option (List Char)
  | [] => if accRev.isEmpty then none else some accRev.reverse
  | c :: rest =>
    if isQuoteChar c then
      if accRev.isEmpty then none
      else if itemCloseMatch (c :: rest) then some accRev.reverse else none
    else
      match itemCaptureMatch (c :: accRev) rest with
      | some r => some r
      | none =>
        if accRev.isEmpty then none
        else if itemCloseMatch (c :: rest) then some accRev.reverse else none

/-- `["']?` before the capture, tried consume-first. -/
def itemAfterWs (l : List Char) : Option (List Char) :=
  match l with
  | [] => none
  | c :: rest =>
    if isQuoteChar c then
      match itemCaptureMatch [] rest with
      | some r => some r
      | none => itemCaptureMatch [] l
    else itemCaptureMatch [] l

/-- `\s*` after the dash, greedy-first with backtracking. -/
def itemStartCapture : List Char → Option (List Char)
  | [] => none
  | c :: rest =>
    if isJsWs c then
      match itemStartCapture rest with
      | some r => some r
      | none => itemAfterWs (c :: rest)
    else itemAfterWs (c :: rest)

/-- `/^-\s*["']?([^"']+)["']?\s*$/.exec(trimmed)?.[1]`: the item-line match,
returning the capture of group 1. -/
def itemMatch (l : List Char) : Option (List Char) :=
  match l with
  | '-' :: rest => itemStartCapture rest
  | _ => none

/-- The line loop of `parsePnpmWorkspacePatterns`: the state is the
`inPackagesSection` flag and the accumulated patterns; `break` returns the
accumulator. -/
def pnpmLineLoop :
    List (List Char) → Bool → List String → List String
  | [], _, patterns => patterns
  | line :: rest, inSection, patterns =>
    if (jsTrimL line).isEmpty || (jsTrimL line).head? == some '#' then
      pnpmLineLoop rest inSection patterns
    else
      match inSection with
      | false =>
        if packagesKeyMatch (jsTrimL line) then pnpmLineLoop rest true patterns
        else pnpmLineLoop rest false patterns
      | true =>
        if topKeyMatch (jsTrimL line) then patterns
        else
          match itemMatch (jsTrimL line) with
          | some m => pnpmLineLoop rest true (patterns ++ [m.asString])
          | none => pnpmLineLoop rest true patterns

/-- `parsePnpmWorkspacePatterns`. -/
def parsePnpmWorkspacePatterns (content : String) : List String :=
  pnpmLineLoop (splitLinesJsL content.toList) false []

/-- The claim-side description of the pnpm parser, stated compositionally:
trim all lines; the packages section starts after the first line matching
`^packages\s*:`; blank and `#`-comment lines are ignored; the section stops
at the next top-level key; each remaining line contributes its item capture,
in order. -/
def pnpmSpecParse (content : String) : List String :=
  (((((((splitLinesJsL content.toList).map jsTrimL).dropWhile
      (fun l => !packagesKeyMatch l)).tail).filter
      (fun l => !(l.isEmpty || l.head? == some '#'))).takeWhile
      (fun l => !topKeyMatch l)).filterMap itemMatch).map List.asString

/-! ## Unused-asset resolution (`asset-scanner.ts`, `findUnusedAssets`) -/

/-- An asset candidate collected from `public/`: full path, basename, and
POSIX-slashed path relative to `public/`. -/
structure AssetCandidate where
  fullPath : String
  filename : String
  relativePath : String
  deriving DecidableEq, Repr

/-- `basenameCounts` lookup: how many collected assets share a basename. -/
def basenameCount (assets : List AssetCandidate) (filename : String) : Nat :=
  (assets.filter (fun a => a.filename = filename)).length

/-- The per-source-file resolution test of `findUnusedAssets`: the content
contains the relative path (or `/` + it), or the basename is globally unique
and the content contains it. -/
def assetResolvedBy (assets : List AssetCandidate) (content : String)
    (asset : AssetCandidate) : Bool :=
  strIncludes content asset.relativePath ||
    strIncludes content ("/" ++ asset.relativePath) ||
    (basenameCount assets asset.filename == 1 &&
      strIncludes content asset.filename)

/-- The source-file loop of `findUnusedAssets`.  `unresolved` is the set of
still-unresolved `(index, asset)` pairs (the source keeps a `Set` of indices
into the assets array; deleting while iterating equals the filter because
each test is independent of the set).  A `none` content is a file whose read
failed, which the source skips. -/
def assetLoop (assets : List AssetCandidate) :
    List (Option String) → List (Nat × AssetCandidate) →
      List (Nat × AssetCandidate)
  | [], unresolved => unresolved
  | content :: rest, unresolved =>
    if unresolved.isEmpty then unresolved
    else
      match content with
      | none => assetLoop assets rest unresolved
      | some c =>
        assetLoop assets rest
          (unresolved.filter (fun p => !assetResolvedBy assets c p.2))

/-- `findUnusedAssets`, from the collected asset candidates and the contents
of the collected source files (the `public/` walk and the source-file
collection are modelled by these two inputs; an empty asset list returns
early). -/
def findUnusedAssets (assets : List AssetCandidate)
    (sources : List (Option String)) : List String :=
  if assets.isEmpty then []
  else (assetLoop assets sources assets.enum).map (fun p => p.2.fullPath)

/-! ## Candidate types and cleanup-scope parsing
(`candidates.ts`, classification document) -/

/-- `CandidateType` (`'artifact' | 'asset' | 'node_modules' | 'pm-cache'`);
the constructors `nodeModules` and `pmCache` stand for the string values
`node_modules` and `pm-cache`. -/
inductive CandidateType where
  | artifact
  | asset
  | nodeModules
  | pmCache
  deriving DecidableEq, Repr

/-- `ALL_CANDIDATE_TYPES`. -/
def ALL_CANDIDATE_TYPES : List CandidateType :=
  [.artifact, .asset, .nodeModules, .pmCache]

/-- `CLEANUP_SCOPE_MAP` as a lookup function on token strings. -/
def cleanupScopeMap (token : String) : Option (List CandidateType) :=
  if token = "default" ∨ token = "all" ∨ token = "cold-storage" ∨
      token = "coldstorage" ∨ token = "archive" ∨ token = "project" ∨
      token = "workspace" then
    some ALL_CANDIDATE_TYPES
  else if token = "safe" ∨ token = "artifacts" ∨ token = "artifact" then
    some [.artifact, .asset]
  else if token = "node-modules" ∨ token = "node_modules" ∨
      token = "nodemodules" then
    some [.nodeModules]
  else if token = "pm-caches" ∨ token = "pm_caches" ∨ token = "pmcaches" then
    some [.pmCache]
  else none

/-- Insertion into the `Set`-modelled accumulator (`resolved.add`), keeping
first-insertion order. -/
def addUniqueType (l : List CandidateType) (x : CandidateType) :
    List CandidateType :=
  if x ∈ l then l else l ++ [x]

/-- The message thrown for an unknown scope token. -/
def invalidTokenMsg (rawToken : String) : String :=
  "Invalid --cleanup-scope value: \"" ++ rawToken ++
    "\". Expected one or more of: all, cold-storage, project, workspace, safe, node-modules, pm-caches"

/-- The message thrown when no token survives normalization. -/
def emptyResolvedMsg : String :=
  "Invalid --cleanup-scope value: expected one or more valid scope tokens."

/-- The token loop of `parseCleanupScope`; `throw` is modelled as
`Except.error`. -/
def parseScopeTokens :
    List String → List CandidateType → Except String (List CandidateType)
  | [], resolved =>
    if resolved.length = 0 then .error emptyResolvedMsg else .ok resolved
  | rawToken :: rest, resolved =>
    let normalizedToken := jsToLower (jsTrim rawToken)
    if normalizedToken = "" then parseScopeTokens rest resolved
    else
      match cleanupScopeMap normalizedToken with
      | none => .error (invalidTokenMsg rawToken)
      | some mapped => parseScopeTokens rest (mapped.foldl addUniqueType resolved)

/-- `parseCleanupScope`; `none` models the `undefined` argument (the
`!cleanupScope` falsy test also catches the empty string, which the trim-length
test covers). -/
def parseCleanupScope (cleanupScope : Option String) :
    Except String (List CandidateType) :=
  match cleanupScope with
  | none => .ok ALL_CANDIDATE_TYPES
  | some s =>
    if (jsTrim s).length = 0 then .ok ALL_CANDIDATE_TYPES
    else parseScopeTokens ((splitOnChar ',' s.toList).map List.asString) []

/-! ## The artifact scanner (`candidates.ts`, scanner document)

Filesystem paths are lists of segments of an absolute path; the oracle record
`FS` models the syscalls, with `none` for a thrown error. -/

/-- An absolute filesystem path as its list of segments. -/
abbrev FsPath := List String

/-- `CleanupScope` (`'project' | 'workspace'`). -/
inductive CleanupScope where
  | project
  | workspace
  deriving DecidableEq, Repr

/-- `CleanupType`; `pmCache` and `workspaceNodeModules` stand for the string
values `'pm-cache'` and `'workspace-node-modules'`. -/
inductive CleanupType where
  | artifact
  | asset
  | pmCache
  | workspaceNodeModules
  deriving DecidableEq, Repr

/-- A `Dirent` from `fs.readdir(…, {withFileTypes: true})`: name and the
result of `isDirectory()` (false for symlinks — `readdir` does not follow
them). -/
structure DirEnt where
  name : String
  isDir : Bool
  deriving DecidableEq, Repr

/-- The `lstat` fields used by `collectStats`; `mtime` is milliseconds since
the epoch. -/
structure LstatInfo where
  isDir : Bool
  size : Int
  mtime : Int
  deriving DecidableEq, Repr

/-- The filesystem oracle: one field per syscall the scanner awaits, `none`
models the syscall throwing.  `statIsDirF` is `fs.stat(p).isDirectory()`
(following symlinks), `lstatF` is `fs.lstat(p)`, `realpathF` is
`fs.realpath(p)`. -/
structure FS where
  realpathF : FsPath → Option FsPath
  readdirF : FsPath → Option (List DirEnt)
  statIsDirF : FsPath → Option Bool
  lstatF : FsPath → Option LstatInfo
  readFileF : FsPath → Option String

/-- `ARTIFACT_NAMES`. -/
def ARTIFACT_NAMES : List String :=
  [".next", "out", ".turbo", ".vercel_build_output", "coverage", ".swc",
    ".docusaurus", "storybook-static"]

/-- `DEFAULT_SCAN_SKIP_DIRS`. -/
def DEFAULT_SCAN_SKIP_DIRS : List String :=
  [".git", ".svn", ".hg", ".next", ".turbo", ".vercel", "node_modules",
    "coverage", ".swc", ".docusaurus", "storybook-static"]

/-- `NEXT_CONFIG_FILES`. -/
def NEXT_CONFIG_FILES : List String :=
  ["next.config.js", "next.config.mjs", "next.config.cjs", "next.config.ts",
    "next.config.mts", "next.config.cts"]

/-- `PROJECT_LOCAL_PM_CACHE_PATHS`. -/
def PROJECT_LOCAL_PM_CACHE_PATHS : List (List String) :=
  [[".npm"], [".pnpm-store"], [".yarn", "cache"], [".yarn", "unplugged"],
    [".bun", "install", "cache"]]

/-- Whether `*/` occurs in the text (so a block comment opened before it has a
closing match). -/
def hasBlockClose : List Char → Bool
  | [] => false
  | c :: rest => (c = '*' && rest.head? == some '/') || hasBlockClose rest

/-- The suffix just after the first `*/`. -/
def afterBlockClose : List Char → List Char
  | [] => []
  | c :: rest =>
    if c = '*' ∧ rest.head? = some '/' then rest.tail
    else afterBlockClose rest

theorem afterBlockClose_length_le (l : List Char) :
    (afterBlockClose l).length ≤ l.length := by
  induction l with
  | nil => simp [afterBlockClose]
  | cons c rest ih =>
    unfold afterBlockClose
    split
    · calc rest.tail.length ≤ rest.length := rest.length_tail ▸ Nat.sub_le _ _
        _ ≤ (c :: rest).length := by simp
    · calc (afterBlockClose rest).length ≤ rest.length := ih
        _ ≤ (c :: rest).length := by simp

/-- `source.replaceAll(/\/\*[\s\S]*?\*\//g, '')`: each block comment is
removed up to its lazy closing `*/`; an opener with no closing anywhere has no
match and stays verbatim. -/
def stripBlockComments : List Char → List Char
  | [] => []
  | c :: rest =>
    if c = '/' ∧ rest.head? = some '*' then
      if hasBlockClose rest.tail then stripBlockComments (afterBlockClose rest.tail)
      else c :: rest
    else c :: stripBlockComments rest
termination_by l => l.length
decreasing_by
  · calc (afterBlockClose rest.tail).length ≤ rest.tail.length :=
        afterBlockClose_length_le _
      _ ≤ rest.length := rest.length_tail ▸ Nat.sub_le _ _
      _ < (c :: rest).length := by simp
  · simp

/-- `source.replaceAll(/\/\/.*$/gm, '')`: remove from `//` to the line
terminator (which stays). -/
def stripLineComments : List Char → List Char
  | [] => []
  | c :: rest =>
    if c = '/' ∧ rest.head? = some '/' then
      stripLineComments (rest.tail.dropWhile (fun x => !(x = '\n' || x = '\r')))
    else c :: stripLineComments rest
termination_by l => l.length
decreasing_by
  · calc (rest.tail.dropWhile (fun x => !(x = '\n' || x = '\r'))).length
        ≤ rest.tail.length :=
          (List.dropWhile_suffix (l := rest.tail) _).length_le
      _ ≤ rest.length := rest.length_tail ▸ Nat.sub_le _ _
      _ < (c :: rest).length := by simp
  · simp

/-- `stripJavaScriptComments`: block comments first, then line comments. -/
def stripJavaScriptComments (l : List Char) : List Char :=
  stripLineComments (stripBlockComments l)

/-- A word character for the `\b` boundary (`[A-Za-z0-9_]`). -/
def isWordChar (c : Char) : Bool :=
  isAsciiLetter c || ('0' ≤ c && c ≤ '9') || c = '_'

/-- A quote of the `distDir` pattern (`'`, `"`, or a backtick). -/
def isDistQuote (c : Char) : Bool :=
  c = '\'' || c = '"' || c = Char.ofNat 96

/-- The attempt to match `distDir\s*:\s*(q)([^quotes]+)\1` at the current
position.  The greedy pieces are deterministic: `\s`, `:`, the quote class
and the capture class are pairwise disjoint, and a shortened capture would
end before a non-quote character, which can never match the backreference. -/
def tryDistDirAt (l : List Char) : Option (List Char) :=
  if "distDir".toList.isPrefixOf l then
    let r1 := (l.drop 7).dropWhile isJsWs
    if r1.head? = some ':' then
      let r2 := r1.tail.dropWhile isJsWs
      match r2.head? with
      | none => none
      | some q =>
        if isDistQuote q then
          let cap := r2.tail.takeWhile (fun c => !isDistQuote c)
          if cap.isEmpty then none
          else if (r2.tail.dropWhile (fun c => !isDistQuote c)).head? = some q
            then some cap
          else none
        else none
    else none
  else none

/-- `DIST_DIR_PATTERN.exec`: scan left to right, trying the match at every
position with a word boundary before it (`\b`); the Bool tracks whether the
previous character was a word character. -/
def findDistDirCapture : Bool → List Char → Option (List Char)
  | _, [] => none
  | prevWord, c :: rest =>
    match (if !prevWord then tryDistDirAt (c :: rest) else none) with
    | some r => some r
    | none => findDistDirCapture (isWordChar c) rest

/-- The `DIST_DIR_PATTERN` match over a whole source text. -/
def distDirMatch (l : List Char) : Option (List Char) :=
  findDistDirCapture false l

/-- The cleaning steps of `normalizeRelativeDirectory` (candidates.ts): like
`cleanPattern` but with no leading-slash stripping (absolute results are
rejected at the end instead). -/
def cleanRelDir (l : List Char) : List Char :=
  stripTrailingSlashes (collapseSlashes (stripDotSlash l))

/-- The body of `normalizeRelativeDirectory` after trimming and backslash
replacement. -/
def relDirCore (l : List Char) : Option (List Char) :=
  if l = [] then none
  else if cleanRelDir l = [] ∨ cleanRelDir l = ['.'] then none
  else if posixNormalize (cleanRelDir l) = []
      ∨ posixNormalize (cleanRelDir l) = ['.'] then none
  else if isRejectedNormalized (posixNormalize (cleanRelDir l))
      || (posixNormalize (cleanRelDir l)).head? == some '/' then none
  else some (posixNormalize (cleanRelDir l))

/-- `normalizeRelativeDirectory` (candidates.ts). -/
def normalizeRelativeDirectory (value : String) : Option (List Char) :=
  relDirCore (toPosixPathL (jsTrimL value.toList))

/-- `findCustomDistDir`: locate a Next.js config entry, read it, strip
comments, match `distDir`, normalize the capture, and require the joined path
to be a directory per `fs.stat`; any failure yields `none`.  The normalized
value has no `.`/`..` segments (those are rejected), so `path.join` is plain
concatenation of its slash-split segments. -/
def findCustomDistDir (fs : FS) (directory : FsPath) (entries : List DirEnt) :
    Option FsPath :=
  match entries.find? (fun e => NEXT_CONFIG_FILES.contains e.name) with
  | none => none
  | some configEntry =>
    match fs.readFileF (directory ++ [configEntry.name]) with
    | none => none
    | some configSource =>
      match distDirMatch (stripJavaScriptComments configSource.toList) with
      | none => none
      | some captured =>
        match relDirCore (toPosixPathL (jsTrimL captured)) with
        | none => none
        | some relativeDistDir =>
          match fs.statIsDirF
              (directory ++ (splitOnChar '/' relativeDistDir).map List.asString) with
          | some true =>
            some (directory ++ (splitOnChar '/' relativeDistDir).map List.asString)
          | _ => none

/-- `findVercelOutputArtifact`. -/
def findVercelOutputArtifact (fs : FS) (vercelPath : FsPath) : Option FsPath :=
  match fs.statIsDirF (vercelPath ++ ["output"]) with
  | some true => some (vercelPath ++ ["output"])
  | _ => none

/-- `findProjectLocalPmCacheCandidates`. -/
def findProjectLocalPmCacheCandidates (fs : FS) (directory : FsPath) :
    List FsPath :=
  PROJECT_LOCAL_PM_CACHE_PATHS.filterMap fun segments =>
    match fs.statIsDirF (directory ++ segments) with
    | some true => some (directory ++ segments)
    | _ => none

/-- `ArtifactStats` (`types.ts`); `mtime` in epoch milliseconds. -/
structure ArtifactStats where
  size : Int
  fileCount : Nat
  mtime : Int
  isDirectory : Bool
  error : Option String
  deriving DecidableEq, Repr

/-- `EMPTY_STATS` (`mtime: new Date(0)`). -/
def EMPTY_STATS : ArtifactStats :=
  { size := 0, fileCount := 0, mtime := 0, isDirectory := false, error := none }

/-- `collectStats`, fuelled (the fuel bounds the recursion depth; exhaustion
reports an error, like an I/O failure; error messages are schematic since the
oracle does not carry them). -/
def collectStats (fs : FS) : Nat → FsPath → ArtifactStats
  | 0, _ => { EMPTY_STATS with error := some "fuel" }
  | fuel + 1, targetPath =>
    match fs.lstatF targetPath with
    | none => { EMPTY_STATS with error := some "lstat" }
    | some st =>
      if !st.isDir then
        { size := st.size, fileCount := 1, mtime := st.mtime,
          isDirectory := false, error := none }
      else
        match fs.readdirF targetPath with
        | none =>
          { size := 0, fileCount := 0, mtime := st.mtime, isDirectory := true,
            error := some "readdir" }
        | some entries =>
          (entries.map fun entry =>
            collectStats fs fuel (targetPath ++ [entry.name])).foldl
            (fun acc nested =>
              { size := acc.size + nested.size
                fileCount := acc.fileCount + nested.fileCount
                mtime := if nested.mtime > acc.mtime then nested.mtime else acc.mtime
                isDirectory := true
                error := acc.error })
            { size := 0, fileCount := 0, mtime := st.mtime, isDirectory := true,
              error := none }

/-- `MONOREPO_MODES` (modes are modelled as their string values). -/
def MONOREPO_MODES : List String := ["auto", "on", "off"]

/-- `WORKSPACE_DISCOVERY_MODES`. -/
def WORKSPACE_DISCOVERY_MODES : List String :=
  ["manifest-fallback", "manifest-only", "heuristic-only"]

/-- `DEFAULT_MONOREPO_MODE`. -/
def DEFAULT_MONOREPO_MODE : String := "auto"

/-- `DEFAULT_WORKSPACE_DISCOVERY_MODE`. -/
def DEFAULT_WORKSPACE_DISCOVERY_MODE : String := "manifest-fallback"

/-- `DEFAULT_CLEANUP_SCOPES`. -/
def DEFAULT_CLEANUP_SCOPES : List CleanupScope := [.project, .workspace]

/-- `normalizeCleanupScopes` for the typed scanner call: a present array is
filtered to known scopes (the type already guarantees that) and deduplicated
preserving order; an absent one falls back. -/
def normalizeCleanupScopes (value : Option (List CleanupScope))
    (fallback : List CleanupScope) : List CleanupScope :=
  match value with
  | none => fallback
  | some l => l.foldl (fun acc s => if s ∈ acc then acc else acc ++ [s]) []

/-- `normalizeMonorepoMode` / `parseMonorepoMode`. -/
def normalizeMonorepoMode (value : Option String) (fallback : String) : String :=
  match value with
  | none => fallback
  | some s => if MONOREPO_MODES.contains s then s else fallback

/-- `normalizeWorkspaceDiscoveryMode` / `parseWorkspaceDiscoveryMode`, with
the legacy aliases. -/
def normalizeWorkspaceDiscoveryMode (value : Option String)
    (fallback : String) : String :=
  match value with
  | none => fallback
  | some s =>
    if s = "auto" then "manifest-fallback"
    else if s = "manifest" then "manifest-only"
    else if s = "heuristic" then "heuristic-only"
    else if WORKSPACE_DISCOVERY_MODES.contains s then s
    else fallback

/-- `ScannerOptions`; `none` models an absent field, `maxDepth` is validated
inside `scanArtifacts` (`Option Int` captures "a number that is an
integer"). -/
structure ScannerOptions where
  skipDirs : Option (List String) := none
  monorepoMode : Option String := none
  workspaceDiscoveryMode : Option String := none
  cleanupScopes : Option (List CleanupScope) := none
  includeNodeModules : Option Bool := none
  includeProjectLocalPmCaches : Option Bool := none
  maxDepth : Option Int := none

/-- `CandidateMetadata`. -/
structure CandidateMetadata where
  cleanupScope : CleanupScope
  cleanupType : CleanupType
  deriving DecidableEq, Repr

/-- `ContainedPath`. -/
structure ContainedPath where
  path : FsPath
  realpath : FsPath
  deriving DecidableEq, Repr

/-- An entry of the discovered-candidates map. -/
structure DiscoveredCandidate where
  cleanupScope : CleanupScope
  cleanupType : CleanupType
  path : FsPath
  deriving DecidableEq, Repr

/-- The scanner's shared mutable state: the discovered map (an association
list keyed by real path, insertion-ordered like a JS `Map`), the processed
set and the skip set. -/
structure ScanState where
  discovered : List (FsPath × DiscoveredCandidate)
  processed : List FsPath
  skipPaths : List FsPath
  deriving DecidableEq, Repr

/-- The initial scanner state. -/
def emptyScanState : ScanState := ⟨[], [], []⟩

/-- `Map.get` on the discovered map. -/
def lookupA (m : List (FsPath × DiscoveredCandidate)) (k : FsPath) :
    Option DiscoveredCandidate :=
  match m with
  | [] => none
  | (k', v) :: rest => if k' = k then some v else lookupA rest k

/-- `Map.set`: replace in place, else append. -/
def insertA (m : List (FsPath × DiscoveredCandidate)) (k : FsPath)
    (v : DiscoveredCandidate) : List (FsPath × DiscoveredCandidate) :=
  match m with
  | [] => [(k, v)]
  | (k', v') :: rest =>
    if k' = k then (k, v) :: rest else (k', v') :: insertA rest k v

/-- `isContainedPath`: `targetPath === rootPath || targetPath.startsWith(rootPath + path.sep)`
on canonical real paths, as segment lists: equality or strict prefix
extension. -/
def isContainedPathB (rootPath targetPath : FsPath) : Bool :=
  targetPath == rootPath ||
    (rootPath.isPrefixOf targetPath && rootPath.length < targetPath.length)

/-- `toContainedPath`: resolve the real path (errors → `none`) and keep only
contained targets.  `path.resolve` is the identity on the model's absolute
paths. -/
def toContainedPath (fs : FS) (rootPath targetPath : FsPath) :
    Option ContainedPath :=
  match fs.realpathF targetPath with
  | none => none
  | some resolvedRealpath =>
    if isContainedPathB rootPath resolvedRealpath then
      some ⟨targetPath, resolvedRealpath⟩
    else none

/-- `addCandidate` (candidates.ts scanner, lines 512–538): containment check,
record the real path in `skipPaths`, then first-insert or upgrade
project→workspace; anything else leaves the map entry unchanged. -/
def addCandidate (fs : FS) (rootRealpath : FsPath) (st : ScanState)
    (candidatePath : FsPath) (metadata : CandidateMetadata) : ScanState :=
  match toContainedPath fs rootRealpath candidatePath with
  | none => st
  | some containedPath =>
    let withSkip : ScanState :=
      { st with skipPaths := containedPath.realpath :: st.skipPaths }
    match lookupA withSkip.discovered containedPath.realpath with
    | none =>
      { withSkip with
        discovered := insertA withSkip.discovered containedPath.realpath
          ⟨metadata.cleanupScope, metadata.cleanupType, containedPath.path⟩ }
    | some existing =>
      if existing.cleanupScope = .project ∧ metadata.cleanupScope = .workspace
      then
        { withSkip with
          discovered := insertA withSkip.discovered containedPath.realpath
            ⟨metadata.cleanupScope, metadata.cleanupType, containedPath.path⟩ }
      else withSkip

/-- A serialized sequence of `addCandidate` emissions over the shared map
(the order-insensitive model of the concurrent candidate emissions, which the
source serializes through the synchronous critical section of
`addCandidate`). -/
def runAddCandidates (fs : FS) (rootRealpath : FsPath)
    (events : List (FsPath × CandidateMetadata)) (st : ScanState) : ScanState :=
  events.foldl (fun s e => addCandidate fs rootRealpath s e.1 e.2) st

/-- The per-scan configuration fixed before the traversal. -/
structure ScanCfg where
  rootRealpath : FsPath
  skipDirs : List String
  includeNodeModules : Bool
  maxDepth : Option Nat
  skipWorkspaceSubtreesInProjectScope : Bool
  workspaceDirectorySet : List FsPath

/-- The `specialChecks` queued during the entries loop. -/
inductive DeferredCheck where
  | nodeModulesCheck (path : FsPath)
  | vercelCheck (path : FsPath)
  deriving DecidableEq, Repr

/-- One iteration of the entries loop of `scanDirectory` (candidates.ts,
lines 574–644), threading the state, the queued special checks and the queued
recursion targets. -/
def processEntry (fs : FS) (cfg : ScanCfg) (scanRootScope : CleanupScope)
    (depth : Nat) (directoryPath : FsPath)
    (acc : ScanState × List DeferredCheck × List FsPath) (entry : DirEnt) :
    ScanState × List DeferredCheck × List FsPath :=
  if !entry.isDir then acc
  else
    match toContainedPath fs cfg.rootRealpath (directoryPath ++ [entry.name]) with
    | none => acc
    | some containedPath =>
      if containedPath.realpath ∈ acc.1.skipPaths then acc
      else if scanRootScope = .project ∧
          cfg.skipWorkspaceSubtreesInProjectScope = true ∧
          containedPath.realpath ∈ cfg.workspaceDirectorySet then acc
      else if ARTIFACT_NAMES.contains entry.name then
        (addCandidate fs cfg.rootRealpath acc.1 containedPath.path
          ⟨scanRootScope, .artifact⟩, acc.2.1, acc.2.2)
      else if entry.name = "node_modules" then
        if !cfg.includeNodeModules then acc
        else (acc.1, acc.2.1 ++ [.nodeModulesCheck containedPath.path], acc.2.2)
      else if entry.name = ".vercel" then
        (acc.1, acc.2.1 ++ [.vercelCheck containedPath.path], acc.2.2)
      else if cfg.skipDirs.contains entry.name then acc
      else if (match cfg.maxDepth with
          | some d => decide (depth ≥ d)
          | none => false) then acc
      else (acc.1, acc.2.1, acc.2.2 ++ [containedPath.path])

/-- Execute one queued special check (the async closures awaited via
`Promise.all(specialChecks)`, serialized in queue order). -/
def applyDeferredCheck (fs : FS) (cfg : ScanCfg) (scanRootScope : CleanupScope)
    (st : ScanState) : DeferredCheck → ScanState
  | .nodeModulesCheck p =>
    addCandidate fs cfg.rootRealpath st p
      ⟨scanRootScope,
        if scanRootScope = .workspace then .workspaceNodeModules else .artifact⟩
  | .vercelCheck p =>
    match findVercelOutputArtifact fs p with
    | none => st
    | some vercelOutput =>
      addCandidate fs cfg.rootRealpath st vercelOutput
        ⟨scanRootScope, .artifact⟩

/-- `scanDirectory` (candidates.ts scanner, lines 540–652), fuelled; the
`Promise.all` fan-outs are serialized in program order. -/
def scanDirectory (fs : FS) (cfg : ScanCfg) :
    Nat → ScanState → FsPath → CleanupScope → Nat → ScanState
  | 0, st, _, _, _ => st
  | fuel + 1, st, directory, scanRootScope, depth =>
    match toContainedPath fs cfg.rootRealpath directory with
    | none => st
    | some containedDirectory =>
      if containedDirectory.realpath ∈ st.processed then st
      else if containedDirectory.realpath ∈ st.skipPaths then st
      else
        match fs.readdirF containedDirectory.path with
        | none =>
          { st with processed := containedDirectory.realpath :: st.processed }
        | some entries =>
          (fun acc =>
            acc.2.2.foldl
              (fun s next =>
                scanDirectory fs cfg fuel s next scanRootScope (depth + 1))
              (acc.2.1.foldl (applyDeferredCheck fs cfg scanRootScope) acc.1))
          (entries.foldl
            (processEntry fs cfg scanRootScope depth containedDirectory.path)
            ((match findCustomDistDir fs containedDirectory.path entries with
              | some customDistDir =>
                addCandidate fs cfg.rootRealpath
                  { st with
                    processed := containedDirectory.realpath :: st.processed }
                  customDistDir ⟨scanRootScope, .artifact⟩
              | none =>
                { st with
                  processed := containedDirectory.realpath :: st.processed }),
              [], []))

/-- `path.relative` on absolute segment paths: drop the common prefix, then
`..` for what remains of the source. -/
def pathRelative (fromPath toPath : FsPath) : List String :=
  match fromPath, toPath with
  | [], t => t
  | f, [] => f.map (fun _ => "..")
  | f :: fs', t :: ts' =>
    if f = t then pathRelative fs' ts'
    else (f :: fs').map (fun _ => "..") ++ (t :: ts')

/-- `path.join` on an absolute base: append, resolving `.` and `..` segments
lexically (Node's `join` normalizes its result). -/
def joinAbs (base : FsPath) (rel : List String) : FsPath :=
  rel.foldl
    (fun acc seg =>
      if seg = "." then acc
      else if seg = ".." then acc.dropLast
      else acc ++ [seg])
    base

/-- The `ScanItem` produced by `scanArtifacts`; `itemType` is the constant
`type: 'artifact'` field. -/
structure ScanItem where
  path : FsPath
  size : Int
  fileCount : Nat
  mtime : Int
  isDirectory : Bool
  error : Option String
  itemType : String
  cleanupScope : CleanupScope
  cleanupType : CleanupType
  deriving DecidableEq, Repr

/-- Lexicographic comparison of segment paths (the model of
`localeCompare`). -/
def pathLexLtB : List String → List String → Bool
  | [], [] => false
  | [], _ :: _ => true
  | _ :: _, [] => false
  | a :: as, b :: bs =>
    if a < b then true else if b < a then false else pathLexLtB as bs

/-- The sort order of the returned items:
`right.size - left.size || left.path.localeCompare(right.path)`, i.e.
size descending then path ascending. -/
def scanItemLE (left right : ScanItem) : Prop :=
  right.size < left.size ∨
    (left.size = right.size ∧ pathLexLtB right.path left.path = false)

instance : DecidableRel scanItemLE := fun _ _ => by
  unfold scanItemLE
  infer_instance

/-- The root real path as computed by `scanArtifacts`
(`fs.realpath(root).catch(() => root)`). -/
def scanRootRealpath (fs : FS) (cwd : FsPath) : FsPath :=
  (fs.realpathF cwd).getD cwd

/-- The normalized cleanup scopes of a scan (`scanArtifacts` preamble). -/
def scanCleanupScopes (options : ScannerOptions) : List CleanupScope :=
  normalizeCleanupScopes options.cleanupScopes DEFAULT_CLEANUP_SCOPES

/-- The normalized monorepo mode of a scan. -/
def scanMonorepoMode (options : ScannerOptions) : String :=
  normalizeMonorepoMode options.monorepoMode DEFAULT_MONOREPO_MODE

/-- The normalized workspace discovery mode of a scan. -/
def scanDiscoveryMode (options : ScannerOptions) : String :=
  normalizeWorkspaceDiscoveryMode options.workspaceDiscoveryMode
    DEFAULT_WORKSPACE_DISCOVERY_MODE

/-- The validated `maxDepth` (a non-negative integer, else unlimited). -/
def scanMaxDepth (options : ScannerOptions) : Option Nat :=
  match options.maxDepth with
  | some d => if d ≥ 0 then some d.toNat else none
  | none => none

/-- The skip-dir set: the defaults plus the non-empty user-supplied names. -/
def scanSkipDirs (options : ScannerOptions) : List String :=
  DEFAULT_SCAN_SKIP_DIRS ++
    ((options.skipDirs.getD []).filter (fun s => !(s == "")))

/-- `workspaceDirectories`: discovery runs only when the workspace scope is
active and the monorepo mode is not `off`; `discover` stands for the imported
`discoverWorkspaces` collaborator and returns its `workspaceDirectories`
(contained real paths, per its contract) for a root and a discovery mode. -/
def scanWorkspaceDirectories (fs : FS)
    (discover : FsPath → String → List FsPath) (cwd : FsPath)
    (options : ScannerOptions) : List FsPath :=
  if (scanCleanupScopes options).contains .workspace &&
      !(scanMonorepoMode options == "off") then
    discover cwd (scanDiscoveryMode options)
  else []

/-- `workspaceRoots`: each discovered real path paired with its reconstructed
logical path (`path.join(rootDirectory, path.relative(rootRealpath, d))`). -/
def scanWorkspaceRoots (fs : FS) (discover : FsPath → String → List FsPath)
    (cwd : FsPath) (options : ScannerOptions) : List (FsPath × FsPath) :=
  (scanWorkspaceDirectories fs discover cwd options).map
    (fun d => (d, joinAbs cwd (pathRelative (scanRootRealpath fs cwd) d)))

/-- `scanRoots`: the project root then the workspace roots, as
(logical path, scope) pairs. -/
def scanRootsOf (fs : FS) (discover : FsPath → String → List FsPath)
    (cwd : FsPath) (options : ScannerOptions) : List (FsPath × CleanupScope) :=
  (if (scanCleanupScopes options).contains .project then
    [(cwd, CleanupScope.project)] else []) ++
  (if (scanCleanupScopes options).contains .workspace &&
      !(scanWorkspaceDirectories fs discover cwd options).isEmpty then
    (scanWorkspaceRoots fs discover cwd options).map
      (fun w => (w.2, CleanupScope.workspace))
  else [])

/-- The traversal configuration of a scan. -/
def scanCfgOf (fs : FS) (discover : FsPath → String → List FsPath)
    (cwd : FsPath) (options : ScannerOptions) : ScanCfg :=
  { rootRealpath := scanRootRealpath fs cwd
    skipDirs := scanSkipDirs options
    includeNodeModules := options.includeNodeModules.getD true
    maxDepth := scanMaxDepth options
    skipWorkspaceSubtreesInProjectScope :=
      !(scanWorkspaceDirectories fs discover cwd options).isEmpty &&
        (scanCleanupScopes options).contains .workspace
    workspaceDirectorySet :=
      (scanWorkspaceRoots fs discover cwd options).map (·.1) }

/-- The state after the whole traversal: for each scan root in order, the
project-local package-manager cache candidates and then the directory walk. -/
def scanFinalState (fs : FS) (discover : FsPath → String → List FsPath)
    (cwd : FsPath) (options : ScannerOptions) (fuel : Nat) : ScanState :=
  (scanRootsOf fs discover cwd options).foldl
    (fun st root =>
      scanDirectory fs (scanCfgOf fs discover cwd options) fuel
        (if options.includeProjectLocalPmCaches.getD true then
          (findProjectLocalPmCacheCandidates fs root.1).foldl
            (fun s cand => addCandidate fs (scanRootRealpath fs cwd) s cand
              ⟨root.2, .pmCache⟩) st
        else st)
        root.1 root.2 0)
    emptyScanState

/-- The `ScanItem` built from a discovered-map entry, with its recursive
stats. -/
def mkScanItem (fs : FS) (fuel : Nat) (kv : FsPath × DiscoveredCandidate) :
    ScanItem :=
  { path := kv.2.path
    size := (collectStats fs fuel kv.2.path).size
    fileCount := (collectStats fs fuel kv.2.path).fileCount
    mtime := (collectStats fs fuel kv.2.path).mtime
    isDirectory := (collectStats fs fuel kv.2.path).isDirectory
    error := (collectStats fs fuel kv.2.path).error
    itemType := "artifact"
    cleanupScope := kv.2.cleanupScope
    cleanupType := kv.2.cleanupType }

/-- `scanArtifacts` (candidates.ts scanner, lines 428–687): empty scan-root
list short-circuits; otherwise the discovered candidates get stats and are
sorted by size descending then path ascending.  `fuel` bounds the traversal
and stats recursion; `path.resolve(cwd)` is the identity on the model's
absolute paths. -/
def scanArtifacts (fs : FS) (discover : FsPath → String → List FsPath)
    (cwd : FsPath) (options : ScannerOptions) (fuel : Nat) : List ScanItem :=
  if (scanRootsOf fs discover cwd options).isEmpty then []
  else
    List.insertionSort scanItemLE
      ((scanFinalState fs discover cwd options fuel).discovered.map
        (mkScanItem fs fuel))

/-- The containment invariant of the discovered map: every entry's key is the
real path of its logical path, and is contained in the root per
`isContainedPath`. -/
def GoodState (fs : FS) (rootRealpath : FsPath) (st : ScanState) : Prop :=
  ∀ kv ∈ st.discovered, fs.realpathF kv.2.path = some kv.1 ∧
    isContainedPathB rootRealpath kv.1 = true

/-- The discovered map holds a workspace-scope entry of cleanup type `t` at
real path `k`. -/
def WorkspaceEntryAt (k : FsPath) (t : CleanupType) (st : ScanState) : Prop :=
  ∃ v, lookupA st.discovered k = some v ∧
    v.cleanupScope = .workspace ∧ v.cleanupType = t

/-- The discovered map holds no workspace-scope entry at real path `k`. -/
def NoWorkspaceAt (k : FsPath) (st : ScanState) : Prop :=
  ∀ v, lookupA st.discovered k = some v → v.cleanupScope ≠ .workspace

/-- A minimal filesystem for exercising one `processEntry` step: the root
holds a `.next` build directory and an ordinary `sub` directory. -/
def fsArtifactDemo : FS where
  realpathF := fun p =>
    if p = ["root"] then some ["root"]
    else if p = ["root", ".next"] then some ["root", ".next"]
    else if p = ["root", "sub"] then some ["root", "sub"]
    else none
  readdirF := fun _ => none
  statIsDirF := fun _ => none
  lstatF := fun _ => none
  readFileF := fun _ => none

/-- A scan configuration with a finite `maxDepth` of 1 for the
`processEntry` demonstration. -/
def cfgArtifactDemo : ScanCfg :=
  ⟨["root"], [], false, some 1, false, []⟩

/-- The concrete filesystem of the C1 counterexample: the root holds a
`.vercel` directory whose `output` entry is a symlink resolving back to the
root itself. -/
def fsVercelLoop : FS where
  realpathF := fun p =>
    if p = ["root"] then some ["root"]
    else if p = ["root", ".vercel"] then some ["root", ".vercel"]
    else if p = ["root", ".vercel", "output"] then some ["root"]
    else none
  readdirF := fun p =>
    if p = ["root"] then some [⟨".vercel", true⟩] else none
  statIsDirF := fun p =>
    if p = ["root", ".vercel", "output"] then some true else none
  lstatF := fun p =>
    if p = ["root", ".vercel", "output"] then some ⟨false, 5, 7⟩ else none
  readFileF := fun _ => none

/-- Project-scope-only options for the counterexample scan. -/
def vercelLoopOptions : ScannerOptions :=
  { cleanupScopes := some [.project] }

/-! ## Deletion engine (embedded from the source of
`deleteItem` / `summarizeDeletionResults` / `deleteItems`) -/

/-- `normalizeSize`: any size that is not a finite positive number becomes 0. -/
def normalizeSize (size : Float) : Float :=
  if size.isFinite && size > 0 then size else 0

/-- A `DeleteResult` (`types.ts`): on failure the `error` field is populated. -/
structure DeleteResult where
  path : String
  ok : Bool
  size : Float
  error : Option String
  deriving Repr

/-- A `DeleteSummary` (`types.ts`). -/
structure DeleteSummary where
  results : List DeleteResult
  deletedCount : Nat
  failureCount : Nat
  reclaimedBytes : Float

/-- The item shape consumed by the deletion engine
(`Pick<ScanItem, 'path' | 'size'>`). -/
structure DeletableItem where
  path : String
  size : Float

/-- `deleteItem`: the `fs.rm(path, {recursive, force})` syscall is modelled by
an oracle `rmError` mapping a path to `none` (success) or an error message. -/
def deleteItem (rmError : String → Option String) (item : DeletableItem) :
    DeleteResult :=
  let itemSize := normalizeSize item.size
  match rmError item.path with
  | none => { path := item.path, ok := true, size := itemSize, error := none }
  | some e => { path := item.path, ok := false, size := itemSize, error := some e }

/-- The accumulation loop of `summarizeDeletionResults`: counts `ok` results
and sums their normalized sizes, in order. -/
def summarizeLoop (results : List DeleteResult) : Nat × Float :=
  results.foldl
    (fun acc result =>
      if result.ok then (acc.1 + 1, acc.2 + normalizeSize result.size) else acc)
    (0, 0)

/-- `summarizeDeletionResults`. -/
def summarizeDeletionResults (results : List DeleteResult) : DeleteSummary :=
  let acc := summarizeLoop results
  { results := results
    deletedCount := acc.1
    failureCount := results.length - acc.1
    reclaimedBytes := acc.2 }

/-- `deleteItems`: deletions run via `Promise.all`, which preserves input
order in its result array; the parallelism is therefore modelled by an
order-preserving `map`. -/
def deleteItems (rmError : String → Option String)
    (items : List DeletableItem) : DeleteSummary :=
  summarizeDeletionResults (items.map (deleteItem rmError))

/-- The specification-side sum: normalized sizes of exactly the `ok` results,
accumulated left to right as the source loop does. -/
def sumOkSizes (results : List DeleteResult) : Float :=
  ((results.filter (·.ok)).map (fun r => normalizeSize r.size)).foldl (· + ·) 0

/-! # Theorems -/

/-! ## Generic string lemmas -/

theorem asString_eq_empty_iff (l : List Char) : l.asString = "" ↔ l = [] := by
  rw [List.asString_eq]
  simp [String.toList_empty]

theorem jsTrim_eq_empty_iff (s : String) :
    jsTrim s = "" ↔ jsTrimL s.toList = [] :=
  asString_eq_empty_iff _

theorem jsTrimL_stable_parts {t : List Char} (h : jsTrimL t = t) :
    t.dropWhile isJsWs = t ∧ t.reverse.dropWhile isJsWs = t.reverse := by
  have hsufA : t.dropWhile isJsWs <:+ t := List.dropWhile_suffix _
  have hlenB : (jsTrimL t).length = t.length := by rw [h]
  have hlen1 : ((t.dropWhile isJsWs).reverse.dropWhile isJsWs).length
      ≤ (t.dropWhile isJsWs).length := by
    calc ((t.dropWhile isJsWs).reverse.dropWhile isJsWs).length
        ≤ (t.dropWhile isJsWs).reverse.length :=
          ((List.dropWhile_suffix _).length_le)
      _ = (t.dropWhile isJsWs).length := List.length_reverse _
  have hlen2 : (t.dropWhile isJsWs).length ≤ t.length := hsufA.length_le
  have hjl : (jsTrimL t).length
      = ((t.dropWhile isJsWs).reverse.dropWhile isJsWs).length := by
    simp [jsTrimL]
  have hA : t.dropWhile isJsWs = t := by
    refine hsufA.eq_of_length ?_
    omega
  refine ⟨hA, ?_⟩
  have hB : (jsTrimL t).reverse = t.reverse.dropWhile isJsWs := by
    simp [jsTrimL, hA]
  rw [← hB, h]

theorem jsTrimL_cons_stable {c : Char} {t : List Char} (hc : ¬isJsWs c)
    (ht : jsTrimL t = t) (hne : t ≠ []) : jsTrimL (c :: t) = c :: t := by
  obtain ⟨-, hrev⟩ := jsTrimL_stable_parts ht
  have h1 : (c :: t).dropWhile isJsWs = c :: t :=
    List.dropWhile_cons_of_neg (by simpa using hc)
  have hrevne : t.reverse ≠ [] := by simpa using hne
  obtain ⟨a, t', ha⟩ := List.exists_cons_of_ne_nil hrevne
  have hna : ¬isJsWs a := by
    intro hwa
    rw [ha, List.dropWhile_cons, if_pos (by simpa using hwa)] at hrev
    have := congrArg List.length hrev
    have hle := (List.dropWhile_suffix (l := t') isJsWs).length_le
    simp at this
    omega
  have h2 : (c :: t).reverse.dropWhile isJsWs = (c :: t).reverse := by
    rw [List.reverse_cons, ha]
    exact List.dropWhile_cons_of_neg (by simpa using hna)
  unfold jsTrimL
  rw [h1, h2, List.reverse_reverse]

/-! ## splitOnChar / joinChar lemmas -/

theorem splitOnChar_ne_nil (sep : Char) (l : List Char) :
    splitOnChar sep l ≠ [] := by
  induction l with
  | nil => simp [splitOnChar]
  | cons c rest ih =>
    simp only [splitOnChar]
    split
    · simp
    · match h : splitOnChar sep rest with
      | [] => simp
      | p :: ps => simp

theorem not_sep_mem_splitOnChar (sep : Char) (l : List Char) :
    ∀ p ∈ splitOnChar sep l, sep ∉ p := by
  induction l with
  | nil => intro p hp; simp [splitOnChar] at hp; simp [hp]
  | cons c rest ih =>
    intro p hp
    simp only [splitOnChar] at hp
    by_cases hc : c = sep
    · rw [if_pos hc] at hp
      rcases List.mem_cons.mp hp with rfl | hp'
      · simp
      · exact ih p hp'
    · rw [if_neg hc] at hp
      match hsp : splitOnChar sep rest with
      | [] => exact absurd hsp (splitOnChar_ne_nil sep rest)
      | q :: qs =>
        rw [hsp] at hp
        rcases List.mem_cons.mp hp with rfl | hp'
        · intro hmem
          rcases List.mem_cons.mp hmem with rfl | hmem'
          · exact hc rfl
          · exact ih q (hsp ▸ List.mem_cons_self q qs) hmem'
        · exact ih p (hsp ▸ List.mem_cons_of_mem q hp')

theorem mem_of_mem_splitOnChar (sep : Char) (l : List Char) :
    ∀ p ∈ splitOnChar sep l, ∀ c ∈ p, c ∈ l := by
  induction l with
  | nil => intro p hp c hc; simp [splitOnChar] at hp; subst hp; cases hc
  | cons a rest ih =>
    intro p hp c hc
    simp only [splitOnChar] at hp
    by_cases ha : a = sep
    · rw [if_pos ha] at hp
      rcases List.mem_cons.mp hp with rfl | hp'
      · cases hc
      · exact List.mem_cons_of_mem a (ih p hp' c hc)
    · rw [if_neg ha] at hp
      match hsp : splitOnChar sep rest with
      | [] => exact absurd hsp (splitOnChar_ne_nil sep rest)
      | q :: qs =>
        rw [hsp] at hp
        rcases List.mem_cons.mp hp with rfl | hp'
        · rcases List.mem_cons.mp hc with rfl | hc'
          · exact List.mem_cons_self c rest
          · exact List.mem_cons_of_mem a
              (ih q (hsp ▸ List.mem_cons_self q qs) c hc')
        · exact List.mem_cons_of_mem a
            (ih p (hsp ▸ List.mem_cons_of_mem q hp') c hc)

theorem splitOnChar_of_not_mem (sep : Char) (l : List Char) (h : sep ∉ l) :
    splitOnChar sep l = [l] := by
  induction l with
  | nil => rfl
  | cons c rest ih =>
    have hc : c ≠ sep := fun hc => h (hc ▸ List.mem_cons_self c rest)
    have hrest : sep ∉ rest := fun hr => h (List.mem_cons_of_mem c hr)
    simp only [splitOnChar, if_neg hc, ih hrest]

theorem splitOnChar_append_sep (sep : Char) (s t : List Char) (h : sep ∉ s) :
    splitOnChar sep (s ++ sep :: t) = s :: splitOnChar sep t := by
  induction s with
  | nil => simp [splitOnChar]
  | cons c s' ih =>
    have hc : c ≠ sep := fun hc => h (hc ▸ List.mem_cons_self c s')
    have hs' : sep ∉ s' := fun hr => h (List.mem_cons_of_mem c hr)
    simp only [List.cons_append, splitOnChar, if_neg hc]
    rw [List.append_eq, ih hs']

theorem joinChar_cons_of_ne_nil (sep : Char) (s : List Char)
    (rest : List (List Char)) (h : rest ≠ []) :
    joinChar sep (s :: rest) = s ++ sep :: joinChar sep rest := by
  match rest with
  | [] => exact absurd rfl h
  | r :: rs => rfl

theorem splitOnChar_joinChar (sep : Char) (S : List (List Char)) (hne : S ≠ [])
    (h : ∀ s ∈ S, sep ∉ s) : splitOnChar sep (joinChar sep S) = S := by
  induction S with
  | nil => exact absurd rfl hne
  | cons s rest ih =>
    match rest with
    | [] => exact splitOnChar_of_not_mem sep s (h s (List.mem_cons_self s []))
    | r :: rs =>
      rw [joinChar_cons_of_ne_nil sep s (r :: rs) (by simp),
        splitOnChar_append_sep sep s _ (h s (List.mem_cons_self s _)),
        ih (by simp) (fun x hx => h x (List.mem_cons_of_mem s hx))]

theorem mem_joinChar (sep : Char) (S : List (List Char)) :
    ∀ c ∈ joinChar sep S, c = sep ∨ ∃ s ∈ S, c ∈ s := by
  induction S with
  | nil => intro c hc; cases hc
  | cons s rest ih =>
    intro c hc
    match rest with
    | [] => exact Or.inr ⟨s, List.mem_cons_self s [], hc⟩
    | r :: rs =>
      rw [joinChar_cons_of_ne_nil sep s (r :: rs) (by simp)] at hc
      rcases List.mem_append.mp hc with hc' | hc'
      · exact Or.inr ⟨s, List.mem_cons_self s _, hc'⟩
      · rcases List.mem_cons.mp hc' with rfl | hc''
        · exact Or.inl rfl
        · rcases ih c hc'' with h | ⟨u, hu, hcu⟩
          · exact Or.inl h
          · exact Or.inr ⟨u, List.mem_cons_of_mem s hu, hcu⟩

theorem joinChar_ne_nil (sep : Char) (s : List Char) (rest : List (List Char))
    (hs : s ≠ []) : joinChar sep (s :: rest) ≠ [] := by
  match rest with
  | [] => simpa [joinChar]
  | r :: rs =>
    rw [joinChar_cons_of_ne_nil sep s (r :: rs) (by simp)]
    simp [hs]

theorem joinChar_head? (sep : Char) (s : List Char) (rest : List (List Char))
    (hs : s ≠ []) : (joinChar sep (s :: rest)).head? = s.head? := by
  match rest with
  | [] => rfl
  | r :: rs =>
    rw [joinChar_cons_of_ne_nil sep s (r :: rs) (by simp)]
    exact List.head?_append_of_ne_nil s hs

theorem joinChar_getLast? (sep : Char) (S : List (List Char)) (hne : S ≠ [])
    (h0 : ∀ s ∈ S, s ≠ []) :
    ∃ s ∈ S, (joinChar sep S).getLast? = s.getLast? := by
  induction S with
  | nil => exact absurd rfl hne
  | cons s rest ih =>
    match rest with
    | [] => exact ⟨s, List.mem_cons_self s [], rfl⟩
    | r :: rs =>
      obtain ⟨u, hu, huu⟩ :=
        ih (by simp) (fun x hx => h0 x (List.mem_cons_of_mem s hx))
      refine ⟨u, List.mem_cons_of_mem s hu, ?_⟩
      rw [joinChar_cons_of_ne_nil sep s (r :: rs) (by simp),
        List.getLast?_append, ← huu]
      have : (sep :: joinChar sep (r :: rs)).getLast? =
          (joinChar sep (r :: rs)).getLast? := by
        have hj : joinChar sep (r :: rs) ≠ [] :=
          joinChar_ne_nil sep r rs (h0 r (by simp))
        obtain ⟨a, t, ha⟩ := List.exists_cons_of_ne_nil hj
        rw [ha]
        simp [List.getLast?]
      rw [this]
      have hj : joinChar sep (r :: rs) ≠ [] :=
        joinChar_ne_nil sep r rs (h0 r (by simp))
      cases hg : (joinChar sep (r :: rs)).getLast? with
      | none => exact absurd (List.getLast?_eq_none_iff.mp hg) hj
      | some a => rfl

/-! ## posixStack lemmas -/

theorem posixStackStep_mem (allow : Bool) (acc : List (List Char))
    (seg : List Char) :
    ∀ s ∈ posixStackStep allow acc seg, s ∈ acc ∨ (s = seg ∧ seg ≠ ['.']) := by
  intro s hs
  unfold posixStackStep at hs
  split at hs
  · exact Or.inl hs
  · rename_i hdot
    split at hs
    · split at hs
      · exact Or.inl (List.dropLast_subset _ hs)
      · split at hs
        · rcases List.mem_append.mp hs with h | h
          · exact Or.inl h
          · exact Or.inr ⟨List.mem_singleton.mp h, hdot⟩
        · exact Or.inl hs
    · rcases List.mem_append.mp hs with h | h
      · exact Or.inl h
      · exact Or.inr ⟨List.mem_singleton.mp h, hdot⟩

theorem posixStack_mem_aux (allow : Bool) (segs : List (List Char)) :
    ∀ (acc : List (List Char)) (s : List Char),
      s ∈ segs.foldl (posixStackStep allow) acc →
      s ∈ acc ∨ (s ∈ segs ∧ s ≠ ['.']) := by
  induction segs with
  | nil => intro acc s hs; exact Or.inl hs
  | cons seg rest ih =>
    intro acc s hs
    rcases ih (posixStackStep allow acc seg) s hs with h | ⟨h1, h2⟩
    · rcases posixStackStep_mem allow acc seg s h with h' | ⟨rfl, hne⟩
      · exact Or.inl h'
      · exact Or.inr ⟨List.mem_cons_self s rest, hne⟩
    · exact Or.inr ⟨List.mem_cons_of_mem seg h1, h2⟩

theorem posixStack_mem (allow : Bool) (segs : List (List Char)) :
    ∀ s ∈ posixStack allow segs, s ∈ segs ∧ s ≠ ['.'] := by
  intro s hs
  rcases posixStack_mem_aux allow segs [] s hs with h | h
  · cases h
  · exact h

theorem posixStack_eq_self (allow : Bool) (segs : List (List Char))
    (h : ∀ s ∈ segs, s ≠ ['.'] ∧ s ≠ ddSeg) : posixStack allow segs = segs := by
  suffices haux : ∀ acc, segs.foldl (posixStackStep allow) acc = acc ++ segs by
    simpa [posixStack] using haux []
  induction segs with
  | nil => intro acc; simp
  | cons seg rest ih =>
    intro acc
    obtain ⟨hdot, hdd⟩ := h seg (List.mem_cons_self seg rest)
    have hstep : posixStackStep allow acc seg = acc ++ [seg] := by
      unfold posixStackStep
      rw [if_neg hdot, if_neg hdd]
    simp only [List.foldl_cons, hstep]
    rw [ih (fun s hs => h s (List.mem_cons_of_mem seg hs)) (acc ++ [seg])]
    simp

/-- The shape invariant of the `..`-handling: the output of the segment
resolution is a run of `..` segments followed by `..`-free segments. -/
theorem posixStackStep_dots_shape (allow : Bool) (acc : List (List Char))
    (seg : List Char)
    (h : ∃ k t, acc = List.replicate k ddSeg ++ t ∧ ddSeg ∉ t) :
    ∃ k t, posixStackStep allow acc seg = List.replicate k ddSeg ++ t ∧
      ddSeg ∉ t := by
  obtain ⟨k, t, rfl, hddt⟩ := h
  unfold posixStackStep
  by_cases hdot : seg = ['.']
  · rw [if_pos hdot]
    exact ⟨k, t, rfl, hddt⟩
  · rw [if_neg hdot]
    by_cases hdd : seg = ddSeg
    · rw [if_pos hdd]
      by_cases hcond : List.replicate k ddSeg ++ t ≠ [] ∧
          (List.replicate k ddSeg ++ t).getLast? ≠ some ddSeg
      · rw [if_pos hcond]
        match t with
        | [] =>
          exfalso
          obtain ⟨hne, hlast⟩ := hcond
          simp only [List.append_nil] at hne hlast
          apply hlast
          rw [List.getLast?_replicate]
          have hk : k ≠ 0 := by
            intro h0
            subst h0
            exact hne (by simp)
          rw [if_neg hk]
        | u :: t' =>
          refine ⟨k, (u :: t').dropLast, ?_,
            fun hm => hddt (List.dropLast_subset _ hm)⟩
          rw [List.dropLast_append_of_ne_nil _ (by simp)]
      · rw [if_neg hcond]
        by_cases hallow : allow
        · rw [if_pos hallow]
          have htnil : t = [] := by
            by_contra htne
            apply hcond
            refine ⟨by simp [htne], ?_⟩
            rw [List.getLast?_append]
            intro hlast
            obtain ⟨a, hga⟩ : ∃ a, t.getLast? = some a := by
              cases hgl : t.getLast? with
              | none => exact absurd (List.getLast?_eq_none_iff.mp hgl) htne
              | some b => exact ⟨b, rfl⟩
            rw [hga] at hlast
            simp only [Option.or_some, Option.some.injEq] at hlast
            exact hddt (List.mem_of_getLast?_eq_some (hlast ▸ hga))
          subst htnil
          refine ⟨k + 1, [], ?_, by simp⟩
          rw [hdd, List.replicate_succ' k ddSeg]
          simp
        · rw [if_neg hallow]
          exact ⟨k, t, rfl, hddt⟩
    · rw [if_neg hdd]
      exact ⟨k, t ++ [seg], by simp, by
        intro hm
        rcases List.mem_append.mp hm with h | h
        · exact hddt h
        · exact hdd ((List.mem_singleton.mp h).symm)⟩

theorem posixStack_dots_shape (allow : Bool) (segs : List (List Char)) :
    ∃ k t, posixStack allow segs = List.replicate k ddSeg ++ t ∧ ddSeg ∉ t := by
  suffices haux : ∀ acc, (∃ k t, acc = List.replicate k ddSeg ++ t ∧ ddSeg ∉ t) →
      ∃ k t, segs.foldl (posixStackStep allow) acc
        = List.replicate k ddSeg ++ t ∧ ddSeg ∉ t by
    exact haux [] ⟨0, [], by simp, by simp⟩
  induction segs with
  | nil => intro acc h; exact h
  | cons seg rest ih =>
    intro acc h
    exact ih (posixStackStep allow acc seg)
      (posixStackStep_dots_shape allow acc seg h)

theorem posixStack_dd_head (allow : Bool) (segs : List (List Char))
    (h : ddSeg ∈ posixStack allow segs) :
    (posixStack allow segs).head? = some ddSeg := by
  obtain ⟨k, t, heq, hddt⟩ := posixStack_dots_shape allow segs
  rw [heq] at h ⊢
  have hk : k ≠ 0 := by
    intro h0
    subst h0
    simp at h
    exact hddt h
  obtain ⟨k', rfl⟩ := Nat.exists_eq_succ_of_ne_zero hk
  rw [List.replicate_succ]
  rfl

/-! ## collapseSlashes and strip lemmas -/

theorem collapseSlashes_eq_self (l : List Char)
    (h : l.Chain' (fun a b => ¬(a = '/' ∧ b = '/'))) : collapseSlashes l = l := by
  induction l with
  | nil => rfl
  | cons c rest ih =>
    match rest with
    | [] => rfl
    | c₂ :: rest' =>
      rw [List.chain'_cons] at h
      unfold collapseSlashes
      rw [if_neg h.1, ih h.2]

theorem chain'_append_of_not_mem {s l : List Char} (hs : '/' ∉ s)
    (hl : l.Chain' (fun a b => ¬(a = '/' ∧ b = '/'))) :
    (s ++ l).Chain' (fun a b => ¬(a = '/' ∧ b = '/')) := by
  refine List.Chain'.append ?_ hl ?_
  · refine List.Pairwise.chain' ?_
    refine List.pairwise_iff_forall_sublist.mpr ?_
    intro a b hab
    have ha : a ∈ s := hab.subset (by simp)
    intro ⟨ha', _⟩
    exact hs (ha' ▸ ha)
  · intro x hx y _
    have hxs : x ∈ s := by
      cases hgl : s.getLast? with
      | none => rw [hgl] at hx; cases hx
      | some a =>
        rw [hgl] at hx
        simp only [Option.mem_def, Option.some.injEq] at hx
        exact List.mem_of_getLast?_eq_some (hx ▸ hgl)
    intro ⟨hx', _⟩
    exact hs (hx' ▸ hxs)

theorem chain'_joinChar (S : List (List Char))
    (h : ∀ s ∈ S, s ≠ [] ∧ '/' ∉ s) :
    (joinChar '/' S).Chain' (fun a b => ¬(a = '/' ∧ b = '/')) := by
  induction S with
  | nil => simp [joinChar]
  | cons s rest ih =>
    match rest with
    | [] =>
      have hres := chain'_append_of_not_mem (s := s) (l := [])
        (h s (by simp)).2 List.chain'_nil
      simpa [joinChar] using hres
    | r :: rs =>
      rw [joinChar_cons_of_ne_nil '/' s (r :: rs) (by simp)]
      refine chain'_append_of_not_mem (h s (by simp)).2 ?_
      rw [List.chain'_cons']
      constructor
      · intro y hy
        have hjh := joinChar_head? '/' r rs (h r (by simp)).1
        rw [hjh] at hy
        have hyr : y ∈ r := List.mem_of_mem_head? hy
        intro ⟨_, hy'⟩
        exact (h r (by simp)).2 (hy' ▸ hyr)
      · exact ih fun x hx => h x (List.mem_cons_of_mem s hx)

theorem stripTrailingSlashes_eq_self (l : List Char)
    (h : l.getLast? ≠ some '/') : stripTrailingSlashes l = l := by
  unfold stripTrailingSlashes
  match hrev : l.reverse with
  | [] =>
    have : l = [] := by simpa using congrArg List.reverse hrev
    simp [this]
  | a :: t =>
    have ha : a ≠ '/' := by
      intro haeq
      apply h
      rw [List.getLast?_eq_head?_reverse, hrev, haeq]
      rfl
    rw [List.dropWhile_cons_of_neg (by simpa using ha), ← hrev,
      List.reverse_reverse]

theorem stripLeadingSlashes_eq_self (l : List Char)
    (h : l.head? ≠ some '/') : stripLeadingSlashes l = l := by
  unfold stripLeadingSlashes
  match l with
  | [] => rfl
  | c :: rest =>
    have hc : c ≠ '/' := fun hc => h (by rw [hc]; rfl)
    exact List.dropWhile_cons_of_neg (by simpa using hc)

theorem stripDotSlash_eq_self (l : List Char)
    (h : ∀ rest, l ≠ '.' :: '/' :: rest) : stripDotSlash l = l := by
  match l with
  | [] => rfl
  | [c] => rfl
  | c₁ :: c₂ :: rest =>
    show (if c₁ = '.' ∧ c₂ = '/' then rest.dropWhile (· = '/')
      else c₁ :: c₂ :: rest) = _
    rw [if_neg]
    intro ⟨h1, h2⟩
    exact h rest (by rw [h1, h2])

theorem toPosixPathL_eq_self (l : List Char) (h : '\\' ∉ l) :
    toPosixPathL l = l := by
  unfold toPosixPathL
  have hcongr : ∀ c ∈ l, bsToSlash c = id c := by
    intro c hc
    unfold bsToSlash
    rw [if_neg (fun (hc' : c = '\\') => h (hc' ▸ hc))]
    rfl
  rw [List.map_congr_left hcongr, List.map_id]

theorem bs_not_mem_toPosixPathL (l : List Char) : '\\' ∉ toPosixPathL l := by
  intro h
  obtain ⟨c, -, hc⟩ := List.mem_map.mp h
  unfold bsToSlash at hc
  split at hc
  · cases hc
  · rename_i hne
    exact hne hc

/-! ## character membership through the cleaning pipeline -/

theorem mem_stripDotSlash {l : List Char} {c : Char} (h : c ∈ stripDotSlash l) :
    c ∈ l := by
  match l with
  | [] => exact h
  | [a] => exact h
  | c₁ :: c₂ :: rest =>
    have h' : c ∈ (if c₁ = '.' ∧ c₂ = '/' then rest.dropWhile (· = '/')
        else c₁ :: c₂ :: rest) := h
    split at h'
    · have := (List.dropWhile_suffix (· = '/')).subset h'
      exact List.mem_cons_of_mem _ (List.mem_cons_of_mem _ this)
    · exact h'

theorem mem_stripLeadingSlashes {l : List Char} {c : Char}
    (h : c ∈ stripLeadingSlashes l) : c ∈ l :=
  (List.dropWhile_suffix _).subset h

theorem mem_collapseSlashes {l : List Char} {c : Char}
    (h : c ∈ collapseSlashes l) : c ∈ l := by
  induction l with
  | nil => cases h
  | cons a rest ih =>
    match rest with
    | [] => exact h
    | b :: rest' =>
      unfold collapseSlashes at h
      split at h
      · exact List.mem_cons_of_mem a (ih h)
      · rcases List.mem_cons.mp h with rfl | h'
        · exact List.mem_cons_self c _
        · exact List.mem_cons_of_mem a (ih h')

theorem mem_stripTrailingSlashes {l : List Char} {c : Char}
    (h : c ∈ stripTrailingSlashes l) : c ∈ l := by
  unfold stripTrailingSlashes at h
  rw [List.mem_reverse] at h
  have := (List.dropWhile_suffix (· = '/')).subset h
  exact List.mem_reverse.mp this

theorem mem_cleanPattern {l : List Char} {c : Char} (h : c ∈ cleanPattern l) :
    c ∈ l :=
  mem_stripDotSlash (mem_stripLeadingSlashes
    (mem_collapseSlashes (mem_stripTrailingSlashes h)))

/-! ## cleanPattern head -/

theorem head?_dropWhile_not {α : Type} (p : α → Bool) (l : List α) :
    ∀ a, (l.dropWhile p).head? = some a → ¬p a := by
  induction l with
  | nil => intro a ha; cases ha
  | cons x rest ih =>
    intro a ha
    rw [List.dropWhile_cons] at ha
    split at ha
    · exact ih a ha
    · rename_i hx
      simp only [List.head?_cons, Option.some.injEq] at ha
      exact ha ▸ hx

theorem collapseSlashes_head? (l : List Char) :
    (collapseSlashes l).head? = l.head? := by
  induction l with
  | nil => rfl
  | cons a rest ih =>
    match rest with
    | [] => rfl
    | b :: rest' =>
      unfold collapseSlashes
      split
      · rename_i hab
        rw [ih]
        simp [hab.1, hab.2]
      · rfl

theorem stripTrailingSlashes_prefix (l : List Char) :
    stripTrailingSlashes l <+: l := by
  have h := List.dropWhile_suffix (l := l.reverse) (· = '/')
  have h2 := List.reverse_prefix.mpr h
  rw [List.reverse_reverse] at h2
  exact h2

theorem cleanPattern_head_ne_slash (l : List Char) (h : cleanPattern l ≠ []) :
    (cleanPattern l).head? ≠ some '/' := by
  intro hhead
  have hpre := stripTrailingSlashes_prefix
    (collapseSlashes (stripLeadingSlashes (stripDotSlash l)))
  obtain ⟨a, t, ha⟩ := List.exists_cons_of_ne_nil h
  unfold cleanPattern at ha hhead
  rw [ha] at hhead hpre
  simp only [List.head?_cons, Option.some.injEq] at hhead
  subst hhead
  obtain ⟨rest, hrest⟩ := hpre
  have hcoll : (collapseSlashes (stripLeadingSlashes (stripDotSlash l))).head?
      = some '/' := by
    rw [← hrest]
    rfl
  rw [collapseSlashes_head?] at hcoll
  exact head?_dropWhile_not (· = '/') (stripDotSlash l) '/' hcoll rfl

/-! ## Stability of the normalization core on its own output -/

theorem normalizePatternCore_some_elim {l n : List Char}
    (h : normalizePatternCore false l = some n) :
    l ≠ [] ∧ cleanPattern l ≠ [] ∧ cleanPattern l ≠ ['.'] ∧
      posixNormalize (cleanPattern l) = n ∧
      n ≠ [] ∧ n ≠ ['.'] ∧ isRejectedNormalized n = false := by
  unfold normalizePatternCore at h
  split at h
  · simp at h
  · rename_i hl
    split at h
    · simp at h
    · rename_i hd
      split at h
      · simp at h
      · rename_i hn
        split at h
        · simp at h
        · rename_i hrej
          push_neg at hd hn
          rw [Option.some_inj] at h
          refine ⟨hl, hd.1, hd.2, h, h ▸ hn.1, h ▸ hn.2, ?_⟩
          rw [← h]
          simpa using hrej

theorem posixNormalize_of_head_ne_slash {d : List Char}
    (h : d.head? ≠ some '/') :
    posixNormalize d =
      (if posixStack true ((splitOnChar '/' d).filter (· ≠ [])) = [] then ['.']
       else joinChar '/' (posixStack true ((splitOnChar '/' d).filter (· ≠ [])))) := by
  unfold posixNormalize
  rw [if_neg h]

/-- The core facts about a successful normalization output: it is the
slash-join of a nonempty list of segments, each nonempty, slash-free, not `.`,
and not `..`. -/
theorem normalizePatternCore_segments {l n : List Char}
    (h : normalizePatternCore false l = some n) :
    ∃ S : List (List Char), S ≠ [] ∧ n = joinChar '/' S ∧
      (∀ s ∈ S, s ≠ [] ∧ '/' ∉ s ∧ s ≠ ['.'] ∧ s ≠ ddSeg) ∧
      (∀ s ∈ S, ∀ c ∈ s, c ∈ cleanPattern l) := by
  obtain ⟨hl, hd1, hd2, hpn, hn1, hn2, hrej⟩ := normalizePatternCore_some_elim h
  have hdh : (cleanPattern l).head? ≠ some '/' :=
    cleanPattern_head_ne_slash l hd1
  rw [posixNormalize_of_head_ne_slash hdh] at hpn
  rcases hstack : posixStack true
      ((splitOnChar '/' (cleanPattern l)).filter (· ≠ [])) with _ | ⟨s₀, Srest⟩
  · rw [hstack, if_pos rfl] at hpn
    exact absurd hpn.symm hn2
  · rw [hstack, if_neg (by simp)] at hpn
    have hmemS : ∀ s ∈ s₀ :: Srest,
        s ∈ (splitOnChar '/' (cleanPattern l)).filter (· ≠ []) ∧ s ≠ ['.'] := by
      rw [← hstack]
      exact posixStack_mem true _
    have hSdd : ddSeg ∉ s₀ :: Srest := by
      intro hdd
      have hhead : (s₀ :: Srest).head? = some ddSeg := by
        rw [← hstack]
        exact posixStack_dd_head true _ (hstack ▸ hdd)
      simp only [List.head?_cons, Option.some.injEq] at hhead
      subst hhead
      cases Srest with
      | nil =>
        have hndd : n = ddSeg := by rw [← hpn]; rfl
        rw [hndd] at hrej
        unfold isRejectedNormalized at hrej
        simp at hrej
      | cons r rs =>
        rw [joinChar_cons_of_ne_nil '/' ddSeg (r :: rs) (by simp)] at hpn
        have hpre : ['.', '.', '/'].isPrefixOf n = true := by
          rw [← hpn]
          show List.isPrefixOf _ (ddSeg ++ '/' :: _) = true
          simp [List.isPrefixOf, ddSeg]
        unfold isRejectedNormalized at hrej
        rw [hpre] at hrej
        simp at hrej
    refine ⟨s₀ :: Srest, by simp, hpn.symm, ?_, ?_⟩
    · intro s hs
      obtain ⟨hseg, hdot⟩ := hmemS s hs
      obtain ⟨hsplitm, hneB⟩ := List.mem_filter.mp hseg
      exact ⟨by simpa using hneB,
        not_sep_mem_splitOnChar '/' (cleanPattern l) s hsplitm, hdot,
        fun hddeq => hSdd (hddeq ▸ hs)⟩
    · intro s hs c hc
      obtain ⟨hseg, -⟩ := hmemS s hs
      obtain ⟨hsplitm, -⟩ := List.mem_filter.mp hseg
      exact mem_of_mem_splitOnChar '/' (cleanPattern l) s hsplitm c hc

/-- A slash-join of nonempty, slash-free, non-`.`, non-`..` segments is a fixed
point of the normalization pipeline. -/
theorem cleanPattern_of_good_join {S : List (List Char)} (hne : S ≠ [])
    (hgood : ∀ s ∈ S, s ≠ [] ∧ '/' ∉ s ∧ s ≠ ['.'] ∧ s ≠ ddSeg) :
    cleanPattern (joinChar '/' S) = joinChar '/' S := by
  obtain ⟨s₀, Srest, rfl⟩ := List.exists_cons_of_ne_nil hne
  have hs₀ := hgood s₀ (List.mem_cons_self s₀ Srest)
  have hhead : (joinChar '/' (s₀ :: Srest)).head? = s₀.head? :=
    joinChar_head? '/' s₀ Srest hs₀.1
  have hheadslash : (joinChar '/' (s₀ :: Srest)).head? ≠ some '/' := by
    rw [hhead]
    intro hh
    exact hs₀.2.1 (List.mem_of_mem_head? (by rw [hh]; rfl))
  have hstripdot : stripDotSlash (joinChar '/' (s₀ :: Srest))
      = joinChar '/' (s₀ :: Srest) := by
    refine stripDotSlash_eq_self _ ?_
    intro rest hcontra
    match Srest with
    | [] =>
      have hs : s₀ = '.' :: '/' :: rest := hcontra
      exact hs₀.2.1 (by rw [hs]; simp)
    | r :: rs =>
      rw [joinChar_cons_of_ne_nil '/' s₀ (r :: rs) (by simp)] at hcontra
      obtain ⟨a, s₀', ha⟩ := List.exists_cons_of_ne_nil hs₀.1
      rw [ha] at hcontra
      simp only [List.cons_append, List.cons.injEq] at hcontra
      obtain ⟨ha', hrest'⟩ := hcontra
      cases s₀' with
      | nil => exact hs₀.2.2.1 (by rw [ha, ha'])
      | cons b s₀'' =>
        simp only [List.cons_append, List.cons.injEq] at hrest'
        exact hs₀.2.1 (by rw [ha, hrest'.1]; simp)
  have hchain := chain'_joinChar (s₀ :: Srest)
    (fun s hs => ⟨(hgood s hs).1, (hgood s hs).2.1⟩)
  have hlast : (joinChar '/' (s₀ :: Srest)).getLast? ≠ some '/' := by
    obtain ⟨u, hu, huu⟩ := joinChar_getLast? '/' (s₀ :: Srest) (by simp)
      (fun s hs => (hgood s hs).1)
    rw [huu]
    intro hl
    exact (hgood u hu).2.1 (List.mem_of_getLast?_eq_some hl)
  unfold cleanPattern
  rw [hstripdot, stripLeadingSlashes_eq_self _ hheadslash,
    collapseSlashes_eq_self _ hchain, stripTrailingSlashes_eq_self _ hlast]

theorem posixNormalize_of_good_join {S : List (List Char)} (hne : S ≠ [])
    (hgood : ∀ s ∈ S, s ≠ [] ∧ '/' ∉ s ∧ s ≠ ['.'] ∧ s ≠ ddSeg) :
    posixNormalize (joinChar '/' S) = joinChar '/' S := by
  have hheadslash : (joinChar '/' S).head? ≠ some '/' := by
    obtain ⟨s₀, Srest, rfl⟩ := List.exists_cons_of_ne_nil hne
    rw [joinChar_head? '/' s₀ Srest (hgood s₀ (by simp)).1]
    intro hh
    exact (hgood s₀ (by simp)).2.1 (List.mem_of_mem_head? (by rw [hh]; rfl))
  rw [posixNormalize_of_head_ne_slash hheadslash]
  have hsplit : splitOnChar '/' (joinChar '/' S) = S :=
    splitOnChar_joinChar '/' S hne (fun s hs => (hgood s hs).2.1)
  have hfilter : S.filter (· ≠ []) = S :=
    List.filter_eq_self.mpr (fun s hs => by simp [(hgood s hs).1])
  have hstack : posixStack true S = S :=
    posixStack_eq_self true S
      (fun s hs => ⟨(hgood s hs).2.2.1, (hgood s hs).2.2.2⟩)
  rw [hsplit, hfilter, hstack, if_neg hne]

theorem normalizePatternCore_stable {l n : List Char}
    (hbs : '\\' ∉ l) (h : normalizePatternCore false l = some n) :
    normalizePatternCore false n = some n ∧ '\\' ∉ n ∧ n ≠ [] := by
  obtain ⟨-, -, -, -, hn1, hn2, hrej⟩ := normalizePatternCore_some_elim h
  obtain ⟨S, hSne, hnS, hgood, hchar⟩ := normalizePatternCore_segments h
  have hbsn : '\\' ∉ n := by
    intro hmem
    rw [hnS] at hmem
    rcases mem_joinChar '/' S '\\' hmem with heq | ⟨s, hsS, hmem'⟩
    · exact absurd heq (by decide)
    · exact hbs (mem_cleanPattern (hchar s hsS '\\' hmem'))
  have hclean : cleanPattern n = n := by
    rw [hnS]; exact cleanPattern_of_good_join hSne hgood
  have hnorm : posixNormalize n = n := by
    rw [hnS]; exact posixNormalize_of_good_join hSne hgood
  refine ⟨?_, hbsn, hn1⟩
  unfold normalizePatternCore
  rw [if_neg hn1, hclean, if_neg (by push_neg; exact ⟨hn1, hn2⟩), hnorm,
    if_neg (by push_neg; exact ⟨hn1, hn2⟩), if_neg (by rw [hrej]; simp)]

/-! ## Deletion engine: C4 and C8 -/

theorem summarizeLoop_fst_le_length (results : List DeleteResult) :
    (summarizeLoop results).1 ≤ results.length := by
  suffices h : ∀ (l : List DeleteResult) (d : Nat) (r : Float),
      (l.foldl (fun acc result =>
        if result.ok then (acc.1 + 1, acc.2 + normalizeSize result.size) else acc)
        (d, r)).1 ≤ d + l.length by
    simpa [summarizeLoop] using h results 0 0
  intro l
  induction l with
  | nil => intro d r; simp
  | cons x xs ih =>
    intro d r
    by_cases hx : x.ok
    · have h := ih (d + 1) (r + normalizeSize x.size)
      simp only [List.foldl_cons, hx, if_true, List.length_cons]
      simpa using Nat.le_trans h (by omega)
    · have h := ih d r
      simp only [List.foldl_cons, hx, if_false, List.length_cons]
      simpa using Nat.le_trans h (by omega)

theorem summarizeLoop_snd_eq (results : List DeleteResult) :
    (summarizeLoop results).2 = sumOkSizes results := by
  suffices h : ∀ (l : List DeleteResult) (d : Nat) (r : Float),
      (l.foldl (fun acc result =>
        if result.ok then (acc.1 + 1, acc.2 + normalizeSize result.size) else acc)
        (d, r)).2
        = ((l.filter (·.ok)).map (fun x => normalizeSize x.size)).foldl (· + ·) r by
    simpa [summarizeLoop, sumOkSizes] using h results 0 0
  intro l
  induction l with
  | nil => intro d r; simp
  | cons x xs ih =>
    intro d r
    by_cases hx : x.ok <;> simp [hx, ih]

/-- C4: for every list of deletion results, the summary satisfies
`failureCount = len(results) − deletedCount` and `reclaimedBytes` is the sum of
the (normalized) sizes of exactly the `ok` results; and `deleteItems []` yields
`deletedCount = 0` and `failureCount = 0` regardless of filesystem behaviour. -/
theorem deleteSummary_accounting :
    (∀ results : List DeleteResult,
      (summarizeDeletionResults results).failureCount
          = results.length - (summarizeDeletionResults results).deletedCount ∧
      (summarizeDeletionResults results).reclaimedBytes = sumOkSizes results) ∧
    (∀ rmError : String → Option String,
      (deleteItems rmError []).deletedCount = 0 ∧
      (deleteItems rmError []).failureCount = 0) := by
  constructor
  · intro results
    refine ⟨rfl, ?_⟩
    simp [summarizeDeletionResults, summarizeLoop_snd_eq]
  · intro rmError
    constructor <;> rfl

/-- C8: the results array of `deleteItems` is positionally aligned with the
input: mapping both to their paths gives the same list (hence the same length
and `results[i].path = items[i].path` at every index). -/
theorem deleteItems_results_aligned (rmError : String → Option String)
    (items : List DeletableItem) :
    (deleteItems rmError items).results.map (·.path) = items.map (·.path) := by
  simp only [deleteItems, summarizeDeletionResults, List.map_map]
  refine List.map_congr_left ?_
  intro item _
  simp only [Function.comp_apply, deleteItem]
  cases rmError item.path <;> rfl

/-! ## Cleanup-scope parsing: C9 -/

theorem parseScopeTokens_all_blank (tokens : List String)
    (h : ∀ t ∈ tokens, jsTrim t = "") :
    parseScopeTokens tokens [] = .error emptyResolvedMsg := by
  induction tokens with
  | nil => rfl
  | cons t ts ih =>
    have ht : jsTrim t = "" := h t (List.mem_cons_self t ts)
    simp only [parseScopeTokens, ht, jsToLower, String.toList_empty, List.map_nil,
      String.asString_nil, if_pos]
    exact ih fun x hx => h x (List.mem_cons_of_mem t hx)

theorem parseScopeTokens_unknown (tokens : List String)
    (resolved : List CandidateType)
    (h : ∃ t ∈ tokens, jsTrim t ≠ "" ∧ cleanupScopeMap (jsToLower (jsTrim t)) = none) :
    ∃ msg, parseScopeTokens tokens resolved = .error msg := by
  induction tokens generalizing resolved with
  | nil => obtain ⟨t, ht, -⟩ := h; cases ht
  | cons t ts ih =>
    obtain ⟨w, hw, hwne, hwmap⟩ := h
    by_cases htr : jsToLower (jsTrim t) = ""
    · have htblank : jsTrim t = "" := by
        have h1 : (jsTrim t).toList.map Char.toLower = [] := by
          simpa [jsToLower, asString_eq_empty_iff] using htr
        have h2 : (jsTrim t).toList = [] := List.map_eq_nil_iff.mp h1
        have h3 := congrArg List.asString h2
        simpa [String.asString_toList, String.asString_nil] using h3
      have hwts : w ∈ ts := by
        rcases List.mem_cons.mp hw with rfl | h'
        · exact absurd htblank hwne
        · exact h'
      simp only [parseScopeTokens, htr, if_pos]
      exact ih resolved ⟨w, hwts, hwne, hwmap⟩
    · simp only [parseScopeTokens, htr, if_neg, if_false]
      rcases hmap : cleanupScopeMap (jsToLower (jsTrim t)) with _ | mapped
      · exact ⟨invalidTokenMsg t, by simp [hmap]⟩
      · have hwts : w ∈ ts := by
          rcases List.mem_cons.mp hw with rfl | h'
          · rw [hwmap] at hmap; cases hmap
          · exact h'
        simpa [hmap] using
          ih (mapped.foldl addUniqueType resolved) ⟨w, hwts, hwne, hwmap⟩

/-- C9: `parseCleanupScope` returns the full candidate-type set on an
`undefined` or blank input, errors on any non-blank input all of whose
comma-separated tokens are blank after trimming, and errors when some
non-blank token is unknown to the scope map. -/
theorem parseCleanupScope_blank_and_separator_behaviour :
    (parseCleanupScope none = .ok ALL_CANDIDATE_TYPES) ∧
    (∀ s : String, jsTrim s = "" →
      parseCleanupScope (some s) = .ok ALL_CANDIDATE_TYPES) ∧
    (∀ s : String, jsTrim s ≠ "" →
      (∀ t ∈ (splitOnChar ',' s.toList).map List.asString, jsTrim t = "") →
      parseCleanupScope (some s) = .error emptyResolvedMsg) ∧
    (∀ s : String, jsTrim s ≠ "" →
      (∃ t ∈ (splitOnChar ',' s.toList).map List.asString,
        jsTrim t ≠ "" ∧ cleanupScopeMap (jsToLower (jsTrim t)) = none) →
      ∃ msg, parseCleanupScope (some s) = .error msg) := by
  refine ⟨rfl, ?_, ?_, ?_⟩
  · intro s hs
    simp [parseCleanupScope, hs]
  · intro s hs hall
    have hlen : (jsTrim s).length ≠ 0 := by
      intro h
      apply hs
      rw [jsTrim_eq_empty_iff]
      have := List.length_asString (jsTrimL s.toList)
      exact List.length_eq_zero.mp (by rw [← this]; exact h)
    simp only [parseCleanupScope, hlen, if_neg, if_false]
    exact parseScopeTokens_all_blank _ hall
  · intro s hs hex
    have hlen : (jsTrim s).length ≠ 0 := by
      intro h
      apply hs
      rw [jsTrim_eq_empty_iff]
      have := List.length_asString (jsTrimL s.toList)
      exact List.length_eq_zero.mp (by rw [← this]; exact h)
    simp only [parseCleanupScope, hlen, if_neg, if_false]
    exact parseScopeTokens_unknown _ _ hex

/-- Witness for C9: the inputs `","` and `" , "` are non-blank but consist of
blank tokens only, and are rejected; blank input is accepted with the full
set. -/
theorem parseCleanupScope_blank_and_separator_behaviour_witness :
    parseCleanupScope (some ",") = .error emptyResolvedMsg ∧
    parseCleanupScope (some " , ") = .error emptyResolvedMsg ∧
    parseCleanupScope (some "  ") = .ok ALL_CANDIDATE_TYPES :=
  ⟨parseCleanupScope_blank_and_separator_behaviour.2.2.1 ","
      (by decide) (by decide),
    parseCleanupScope_blank_and_separator_behaviour.2.2.1 " , "
      (by decide) (by decide),
    parseCleanupScope_blank_and_separator_behaviour.2.1 "  " (by decide)⟩

/-! ## Path normalizer idempotence: C6 -/

/-- C6 counterexample: normalization is not idempotent as claimed.  `"/ b"`
normalizes successfully to `" b"` (stripping the leading slash exposes a
segment with leading whitespace), but applying the normalizer to `" b"` trims
the space and returns `"b"`; the workspace variant behaves the same under its
`!` marker, and a non-negated output that happens to begin with `!` (such as
`"!.."`, produced from `"a/../!.."`) is even rejected outright on
reapplication. -/
theorem normalize_idempotence_counterexample :
    (normalizePathPattern false "/ b" = some " b" ∧
      normalizePathPattern false " b" = some "b") ∧
    (normalizeWorkspacePattern "!/ b" = some "! b" ∧
      normalizeWorkspacePattern "! b" = some "!b") ∧
    (normalizeWorkspacePattern "a/../!.." = some "!.." ∧
      normalizeWorkspacePattern "!.." = none) := by
  decide

/-- C6 (amended): `normalizePathPattern` and `normalizeWorkspacePattern` are
idempotent on every input whose normalized output is trim-stable after its
optional leading `!` negation marker — i.e. the output (for workspace
patterns: the part following the preserved `!`) carries no leading or
trailing whitespace, and an output starting with `!` only arises from a
negated input.  The counterexamples above show both provisos are necessary. -/
theorem normalize_pattern_idempotent_on_stable_outputs :
    (∀ x y : String, normalizePathPattern false x = some y → jsTrim y = y →
      normalizePathPattern false y = some y) ∧
    (∀ x y : String, normalizeWorkspacePattern x = some y →
      jsTrimL (negStripL y.toList) = negStripL y.toList →
      (y.toList.head? = some '!' → (jsTrimL x.toList).head? = some '!') →
      normalizeWorkspacePattern y = some y) := by
  constructor
  · intro x y hx hy
    unfold normalizePathPattern at hx ⊢
    obtain ⟨n, hcore, hn⟩ := Option.map_eq_some'.mp hx
    have hyl : y.toList = n := by rw [← hn, List.toList_asString]
    have htrim : jsTrimL n = n := by
      have h1 := congrArg String.toList hy
      rw [jsTrim, List.toList_asString, hyl] at h1
      exact h1
    obtain ⟨hstable, hbsn, -⟩ :=
      normalizePatternCore_stable (bs_not_mem_toPosixPathL _) hcore
    rw [hyl, htrim, toPosixPathL_eq_self n hbsn, hstable, Option.map_some', hn]
  · intro x y hx hy1 hy2
    unfold normalizeWorkspacePattern at hx ⊢
    by_cases hraw : jsTrimL x.toList = []
    · rw [if_pos hraw] at hx
      cases hx
    · rw [if_neg hraw] at hx
      by_cases hneg : (jsTrimL x.toList).head? = some '!'
      · rw [if_pos hneg] at hx
        by_cases hinner : jsTrimL ((jsTrimL x.toList).drop 1) = []
        · rw [if_pos hinner] at hx
          cases hx
        · rw [if_neg hinner] at hx
          obtain ⟨n, hcore, hn⟩ := Option.map_eq_some'.mp hx
          have hyl : y.toList = '!' :: n := by rw [← hn, List.toList_asString]
          obtain ⟨hstable, hbsn, hnne⟩ :=
            normalizePatternCore_stable (bs_not_mem_toPosixPathL _) hcore
          have hstrip : negStripL y.toList = n := by
            rw [hyl]
            rfl
          rw [hstrip] at hy1
          have hytrim : jsTrimL y.toList = y.toList := by
            rw [hyl]
            exact jsTrimL_cons_stable (by decide) hy1 hnne
          rw [hytrim, hyl, if_neg (by simp),
            if_pos (show ('!' :: n : List Char).head? = some '!' from rfl)]
          have hdrop : ('!' :: n : List Char).drop 1 = n := rfl
          rw [hdrop, hy1, if_neg hnne, toPosixPathL_eq_self n hbsn, hstable,
            Option.map_some', hn]
      · rw [if_neg hneg] at hx
        obtain ⟨n, hcore, hn⟩ := Option.map_eq_some'.mp hx
        have hyl : y.toList = n := by rw [← hn, List.toList_asString]
        obtain ⟨hstable, hbsn, hnne⟩ :=
          normalizePatternCore_stable (bs_not_mem_toPosixPathL _) hcore
        have hnbang : n.head? ≠ some '!' := by
          intro hb
          exact hneg (hy2 (by rw [hyl]; exact hb))
        have hstrip : negStripL y.toList = y.toList := by
          unfold negStripL
          rw [if_neg (by rw [hyl]; exact hnbang)]
        rw [hstrip] at hy1
        rw [hy1, hyl, if_neg hnne, if_neg hnbang,
          toPosixPathL_eq_self n hbsn, hstable, Option.map_some', hn]

/-- Witness for the amended C6: concrete trim-stable outputs are fixed points
of both normalizers. -/
theorem normalize_pattern_idempotent_on_stable_outputs_witness :
    normalizePathPattern false "a/b" = some "a/b" ∧
    normalizeWorkspacePattern "!apps/x" = some "!apps/x" :=
  ⟨normalize_pattern_idempotent_on_stable_outputs.1 "./a/b/" "a/b"
      (by decide) (by decide),
    normalize_pattern_idempotent_on_stable_outputs.2 "!./apps/x/" "!apps/x"
      (by decide) (by decide) (by decide)⟩

/-! ## Config pattern matching: C10 -/

/-- C10 counterexample: a pattern containing `/../` is not always rejected.
`a/../b` contains `/../`, yet it normalizes to `b` and therefore matches the
relative path `b` — rather than matching nothing. -/
theorem matchesConfigPattern_traversal_counterexample :
    strIncludes "a/../b" "/../" = true ∧
    normalizeConfigPattern "a/../b" = some "b" ∧
    matchesConfigPattern "b" "a/../b" = true := by
  decide

/-- C10 (amended): `matchesConfigPattern` returns false whenever the pattern
fails normalization, where failure is evaluated on the lexically normalized
pattern: blank patterns, `.`, patterns normalizing to `..` or to a path
beginning with `../`, and drive-prefixed patterns are rejected and match no
item; a `/../`-containing pattern that lexically normalizes to an in-root
path (such as `a/../b` → `b`) instead matches exactly that normalized
prefix. -/
theorem matchesConfigPattern_rejected_patterns :
    (∀ relativePath pattern : String,
      normalizeConfigPattern pattern = none →
      matchesConfigPattern relativePath pattern = false) ∧
    normalizeConfigPattern "" = none ∧
    normalizeConfigPattern " " = none ∧
    normalizeConfigPattern "." = none ∧
    normalizeConfigPattern ".." = none ∧
    normalizeConfigPattern "../x" = none ∧
    normalizeConfigPattern "x/.." = none ∧
    normalizeConfigPattern "C:/x" = none := by
  refine ⟨?_, by decide, by decide, by decide, by decide, by decide,
    by decide, by decide⟩
  intro relativePath pattern h
  unfold matchesConfigPattern
  rw [h]

/-- Witness for the amended C10: a rejected pattern matches nothing. -/
theorem matchesConfigPattern_rejected_patterns_witness :
    matchesConfigPattern "x" ".." = false :=
  matchesConfigPattern_rejected_patterns.1 "x" ".." (by decide)

/-! ## pnpm-workspace.yaml parsing: C7 -/

theorem topKeyMatch_not_blank {t : List Char} (h : topKeyMatch t = true) :
    (t.isEmpty || t.head? == some '#') = false := by
  unfold topKeyMatch at h
  rw [Bool.and_eq_true] at h
  obtain ⟨h1, -⟩ := h
  match t with
  | [] => simp at h1
  | c :: rest =>
    rw [List.takeWhile_cons] at h1
    by_cases hc : isKeyChar c = true
    · have hcs : c ≠ '#' := by
        intro he
        rw [he] at hc
        exact absurd hc (by decide)
      simp [hcs]
    · rw [if_neg hc] at h1
      simp at h1

theorem blank_or_hash_not_packagesKey {t : List Char}
    (h : (t.isEmpty || t.head? == some '#') = true) :
    packagesKeyMatch t = false := by
  unfold packagesKeyMatch
  rw [Bool.or_eq_true] at h
  rcases h with h | h
  · have ht : t = [] := List.isEmpty_iff.mp h
    subst ht
    decide
  · match t with
    | [] => simp at h
    | c :: rest =>
      simp only [List.head?_cons, beq_iff_eq, Option.some.injEq] at h
      subst h
      simp [List.isPrefixOf]

theorem pnpmLineLoop_section (ls : List (List Char)) :
    ∀ patterns : List String,
      pnpmLineLoop ls true patterns = patterns ++
        ((((ls.map jsTrimL).filter
            (fun l => !(l.isEmpty || l.head? == some '#'))).takeWhile
            (fun l => !topKeyMatch l)).filterMap itemMatch).map List.asString := by
  induction ls with
  | nil => intro patterns; simp [pnpmLineLoop]
  | cons line rest ih =>
    intro patterns
    by_cases hblank :
        ((jsTrimL line).isEmpty || (jsTrimL line).head? == some '#') = true
    · have hL : pnpmLineLoop (line :: rest) true patterns
          = pnpmLineLoop rest true patterns := by
        simp only [pnpmLineLoop]
        rw [if_pos hblank]
      rw [hL, ih patterns, List.map_cons, List.filter_cons,
        if_neg (by rw [hblank]; decide)]
    · have hblank' :
          ((jsTrimL line).isEmpty || (jsTrimL line).head? == some '#') = false := by
        simpa using hblank
      rw [List.map_cons, List.filter_cons, if_pos (by rw [hblank']; rfl),
        List.takeWhile_cons]
      by_cases htop : topKeyMatch (jsTrimL line) = true
      · have hL : pnpmLineLoop (line :: rest) true patterns = patterns := by
          simp only [pnpmLineLoop]
          rw [if_neg hblank, if_pos htop]
        rw [hL, if_neg (by rw [htop]; decide)]
        simp
      · have htop' : topKeyMatch (jsTrimL line) = false := by simpa using htop
        rw [if_pos (by rw [htop']; rfl), List.filterMap_cons]
        cases hitem : itemMatch (jsTrimL line) with
        | none =>
          have hL : pnpmLineLoop (line :: rest) true patterns
              = pnpmLineLoop rest true patterns := by
            simp only [pnpmLineLoop]
            rw [if_neg hblank, if_neg htop, hitem]
          rw [hL, ih patterns]
        | some m =>
          have hL : pnpmLineLoop (line :: rest) true patterns
              = pnpmLineLoop rest true (patterns ++ [m.asString]) := by
            simp only [pnpmLineLoop]
            rw [if_neg hblank, if_neg htop, hitem]
          rw [hL, ih (patterns ++ [m.asString])]
          simp

theorem pnpmLineLoop_search (ls : List (List Char)) :
    ∀ patterns : List String,
      pnpmLineLoop ls false patterns = patterns ++
        ((((((ls.map jsTrimL).dropWhile
            (fun l => !packagesKeyMatch l)).tail).filter
            (fun l => !(l.isEmpty || l.head? == some '#'))).takeWhile
            (fun l => !topKeyMatch l)).filterMap itemMatch).map List.asString := by
  induction ls with
  | nil => intro patterns; simp [pnpmLineLoop]
  | cons line rest ih =>
    intro patterns
    by_cases hblank :
        ((jsTrimL line).isEmpty || (jsTrimL line).head? == some '#') = true
    · have hL : pnpmLineLoop (line :: rest) false patterns
          = pnpmLineLoop rest false patterns := by
        simp only [pnpmLineLoop]
        rw [if_pos hblank]
      rw [hL, ih patterns, List.map_cons,
        List.dropWhile_cons_of_pos
          (by rw [blank_or_hash_not_packagesKey hblank]; decide)]
    · by_cases hpk : packagesKeyMatch (jsTrimL line) = true
      · have hL : pnpmLineLoop (line :: rest) false patterns
            = pnpmLineLoop rest true patterns := by
          simp only [pnpmLineLoop]
          rw [if_neg hblank, if_pos hpk]
        rw [hL, pnpmLineLoop_section rest patterns, List.map_cons,
          List.dropWhile_cons_of_neg (by rw [hpk]; decide),
          List.tail_cons]
      · have hpk' : packagesKeyMatch (jsTrimL line) = false := by simpa using hpk
        have hL : pnpmLineLoop (line :: rest) false patterns
            = pnpmLineLoop rest false patterns := by
          simp only [pnpmLineLoop]
          rw [if_neg hblank, if_neg hpk]
        rw [hL, ih patterns, List.map_cons,
          List.dropWhile_cons_of_pos (by rw [hpk']; decide)]

/-- C7: `parsePnpmWorkspacePatterns` returns exactly the list items of the
packages section — collection starts after the first line matching
`^packages\s*:`; blank lines and `#`-comment lines are ignored; parsing
terminates at the next top-level key (`^[A-Za-z0-9_-]+\s*:`, checked before
the item pattern, so a line matching both terminates); every other section
line matching `^-\s*["']?([^"']+)["']?\s*$` contributes its capture in
order. -/
theorem parsePnpmWorkspacePatterns_eq_spec (content : String) :
    parsePnpmWorkspacePatterns content = pnpmSpecParse content := by
  unfold parsePnpmWorkspacePatterns pnpmSpecParse
  rw [pnpmLineLoop_search]
  simp

/-! ## Unused-asset resolution: C3 -/

theorem assetLoop_filter (assets : List AssetCandidate)
    (sources : List (Option String)) :
    ∀ unresolved, assetLoop assets sources unresolved =
      unresolved.filter (fun p =>
        !(sources.filterMap id).any (fun c => assetResolvedBy assets c p.2)) := by
  induction sources with
  | nil =>
    intro unresolved
    simp [assetLoop]
  | cons content rest ih =>
    intro unresolved
    by_cases hemp : unresolved.isEmpty = true
    · have hnil : unresolved = [] := List.isEmpty_iff.mp hemp
      subst hnil
      simp [assetLoop]
    · cases content with
      | none =>
        simp only [assetLoop, if_neg hemp]
        rw [ih]
        rfl
      | some c =>
        simp only [assetLoop, if_neg hemp]
        rw [ih, List.filter_filter]
        refine List.filter_congr ?_
        intro p hp
        simp only [List.filterMap_cons, id, List.any_cons]
        cases assetResolvedBy assets c p.2 <;> simp

/-- C3: an asset is marked resolved iff some readable source content contains
its public-relative POSIX path (or `/` prepended to it), or its basename is
globally unique among the collected public images and some readable source
content contains the basename; and in the bounded-basename-fallback scenario
the unused set is exactly `[public/images/b/logo.png]`. -/
theorem findUnusedAssets_characterization :
    (∀ (assets : List AssetCandidate) (sources : List (Option String)),
      findUnusedAssets assets sources =
        ((assets.enum.filter (fun p =>
          !(sources.filterMap id).any
            (fun c => assetResolvedBy assets c p.2))).map
          (fun p => p.2.fullPath))) ∧
    findUnusedAssets
      [⟨"public/images/a/logo.png", "logo.png", "images/a/logo.png"⟩,
        ⟨"public/images/b/logo.png", "logo.png", "images/b/logo.png"⟩,
        ⟨"public/icons/unique.png", "unique.png", "icons/unique.png"⟩]
      [some "img(\"/images/a/logo.png\"); img(\"unique.png\")"]
      = ["public/images/b/logo.png"] := by
  constructor
  · intro assets sources
    unfold findUnusedAssets
    by_cases hemp : assets.isEmpty = true
    · have hnil : assets = [] := List.isEmpty_iff.mp hemp
      subst hnil
      simp
    · rw [if_neg hemp, assetLoop_filter]
  · decide

/-! ## Scanner containment: C1 -/

theorem foldl_preserve {α : Type} {β : Type} (P : α → Prop) (f : α → β → α)
    (h : ∀ a b, P a → P (f a b)) :
    ∀ (l : List β) (a : α), P a → P (l.foldl f a) := by
  intro l
  induction l with
  | nil => intro a ha; exact ha
  | cons x xs ih => intro a ha; exact ih (f a x) (h a x ha)

theorem mem_insertA {m : List (FsPath × DiscoveredCandidate)} {k : FsPath}
    {v : DiscoveredCandidate} {kv : FsPath × DiscoveredCandidate}
    (h : kv ∈ insertA m k v) : kv ∈ m ∨ kv = (k, v) := by
  induction m with
  | nil => simpa [insertA] using h
  | cons hd rest ih =>
    obtain ⟨k', v'⟩ := hd
    unfold insertA at h
    split at h
    · rcases List.mem_cons.mp h with rfl | h'
      · exact Or.inr rfl
      · exact Or.inl (List.mem_cons_of_mem _ h')
    · rcases List.mem_cons.mp h with rfl | h'
      · exact Or.inl (List.mem_cons_self _ _)
      · rcases ih h' with h'' | h''
        · exact Or.inl (List.mem_cons_of_mem _ h'')
        · exact Or.inr h''

theorem toContainedPath_elim {fs : FS} {root target : FsPath}
    {cp : ContainedPath} (h : toContainedPath fs root target = some cp) :
    fs.realpathF target = some cp.realpath ∧
      isContainedPathB root cp.realpath = true ∧ cp.path = target := by
  unfold toContainedPath at h
  split at h
  · cases h
  · rename_i rp hrp
    split at h
    · rename_i hcont
      rw [Option.some_inj] at h
      subst h
      exact ⟨hrp, hcont, rfl⟩
    · cases h

theorem addCandidate_discovered_cases (fs : FS) (root : FsPath)
    (st : ScanState) (p : FsPath) (md : CandidateMetadata) :
    (addCandidate fs root st p md).discovered = st.discovered ∨
    ∃ cp, toContainedPath fs root p = some cp ∧
      (addCandidate fs root st p md).discovered
        = insertA st.discovered cp.realpath
            ⟨md.cleanupScope, md.cleanupType, cp.path⟩ := by
  unfold addCandidate
  split
  · exact Or.inl rfl
  · rename_i cp hcp
    dsimp only
    split
    · exact Or.inr ⟨cp, hcp, rfl⟩
    · split
      · exact Or.inr ⟨cp, hcp, rfl⟩
      · exact Or.inl rfl

theorem goodState_addCandidate {fs : FS} {root : FsPath} {st : ScanState}
    (p : FsPath) (md : CandidateMetadata) (h : GoodState fs root st) :
    GoodState fs root (addCandidate fs root st p md) := by
  rcases addCandidate_discovered_cases fs root st p md with hc | ⟨cp, hcp, hc⟩
  · intro kv hkv
    rw [hc] at hkv
    exact h kv hkv
  · intro kv hkv
    rw [hc] at hkv
    rcases mem_insertA hkv with h' | rfl
    · exact h kv h'
    · obtain ⟨h1, h2, h3⟩ := toContainedPath_elim hcp
      exact ⟨by simpa [h3] using h1, h2⟩

theorem goodState_processEntry {fs : FS} {cfg : ScanCfg}
    (scope : CleanupScope) (depth : Nat) (dirPath : FsPath)
    (acc : ScanState × List DeferredCheck × List FsPath) (entry : DirEnt)
    (h : GoodState fs cfg.rootRealpath acc.1) :
    GoodState fs cfg.rootRealpath
      (processEntry fs cfg scope depth dirPath acc entry).1 := by
  unfold processEntry
  repeat' split
  all_goals
    first
      | exact h
      | exact goodState_addCandidate _ _ h

theorem goodState_applyDeferredCheck {fs : FS} {cfg : ScanCfg}
    (scope : CleanupScope) (st : ScanState) (check : DeferredCheck)
    (h : GoodState fs cfg.rootRealpath st) :
    GoodState fs cfg.rootRealpath
      (applyDeferredCheck fs cfg scope st check) := by
  unfold applyDeferredCheck
  repeat' split
  all_goals
    first
      | exact h
      | exact goodState_addCandidate _ _ h

theorem goodState_scanDirectory {fs : FS} {cfg : ScanCfg} :
    ∀ (fuel : Nat) (st : ScanState) (dir : FsPath) (scope : CleanupScope)
      (depth : Nat), GoodState fs cfg.rootRealpath st →
      GoodState fs cfg.rootRealpath
        (scanDirectory fs cfg fuel st dir scope depth) := by
  intro fuel
  induction fuel with
  | zero => intro st dir scope depth h; exact h
  | succ fuel ih =>
    intro st dir scope depth h
    unfold scanDirectory
    split
    · exact h
    · rename_i cd hcd
      split
      · exact h
      · split
        · exact h
        · split
          · exact h
          · rename_i entries hentries
            dsimp only
            refine foldl_preserve (GoodState fs cfg.rootRealpath)
              _ (fun a b ha => ih a b scope (depth + 1) ha) _ _ ?_
            refine foldl_preserve (GoodState fs cfg.rootRealpath)
              _ (fun a b ha => goodState_applyDeferredCheck scope a b ha) _ _ ?_
            have hbase : GoodState fs cfg.rootRealpath
                ((match findCustomDistDir fs cd.path entries with
                  | some customDistDir =>
                    addCandidate fs cfg.rootRealpath
                      { st with processed := cd.realpath :: st.processed }
                      customDistDir ⟨scope, .artifact⟩
                  | none =>
                    { st with processed := cd.realpath :: st.processed })) := by
              split
              · exact goodState_addCandidate _ _ h
              · exact h
            have htriple := foldl_preserve
              (fun t : ScanState × List DeferredCheck × List FsPath =>
                GoodState fs cfg.rootRealpath t.1)
              (processEntry fs cfg scope depth cd.path)
              (fun a b ha => goodState_processEntry scope depth cd.path a b ha)
              entries
              ((match findCustomDistDir fs cd.path entries with
                | some customDistDir =>
                  addCandidate fs cfg.rootRealpath
                    { st with processed := cd.realpath :: st.processed }
                    customDistDir ⟨scope, .artifact⟩
                | none =>
                  { st with processed := cd.realpath :: st.processed }),
                [], []) hbase
            exact htriple

theorem goodState_scanFinalState (fs : FS)
    (discover : FsPath → String → List FsPath) (cwd : FsPath)
    (options : ScannerOptions) (fuel : Nat) :
    GoodState fs (scanRootRealpath fs cwd)
      (scanFinalState fs discover cwd options fuel) := by
  unfold scanFinalState
  refine foldl_preserve (GoodState fs (scanRootRealpath fs cwd)) _ ?_ _ _ ?_
  · intro st root h
    have hroot : (scanCfgOf fs discover cwd options).rootRealpath
        = scanRootRealpath fs cwd := rfl
    refine hroot ▸ goodState_scanDirectory fuel _ root.1 root.2 0 ?_
    split
    · refine foldl_preserve (GoodState fs (scanRootRealpath fs cwd)) _ ?_ _ _ h
      intro a b ha
      exact goodState_addCandidate _ _ ha
    · exact h
  · intro kv hkv
    cases hkv

/-- C1 (amended): every `ScanItem` returned by `scanArtifacts` has a
symlink-resolved real path that is contained in the scan root's real path in
the sense of the source's `isContainedPath` — it starts with the root real
path followed by the separator **or equals the root real path**; equality is
not excluded. -/
theorem scanArtifacts_containment (fs : FS)
    (discover : FsPath → String → List FsPath) (cwd : FsPath)
    (options : ScannerOptions) (fuel : Nat) (item : ScanItem)
    (hmem : item ∈ scanArtifacts fs discover cwd options fuel) :
    ∃ rp, fs.realpathF item.path = some rp ∧
      isContainedPathB (scanRootRealpath fs cwd) rp = true := by
  unfold scanArtifacts at hmem
  split at hmem
  · cases hmem
  · have hperm := List.perm_insertionSort scanItemLE
      ((scanFinalState fs discover cwd options fuel).discovered.map
        (mkScanItem fs fuel))
    have hmem' := hperm.mem_iff.mp hmem
    obtain ⟨kv, hkv, hitem⟩ := List.mem_map.mp hmem'
    have hgood := goodState_scanFinalState fs discover cwd options fuel kv hkv
    refine ⟨kv.1, ?_, hgood.2⟩
    rw [← hitem]
    exact hgood.1

/-- Witness for the amended C1: in the counterexample filesystem the single
emitted item satisfies the (equality-admitting) containment. -/
theorem scanArtifacts_containment_witness :
    ∃ rp, fsVercelLoop.realpathF
        (mkScanItem fsVercelLoop 4
          (["root"], ⟨.project, .artifact, ["root", ".vercel", "output"]⟩)).path
        = some rp ∧
      isContainedPathB (scanRootRealpath fsVercelLoop ["root"]) rp = true :=
  scanArtifacts_containment fsVercelLoop (fun _ _ => []) ["root"]
    vercelLoopOptions 4 _ (by decide)

/-- C1 counterexample: the claim's "is not equal to the root's real path
itself" fails.  With a `.vercel/output` symlink resolving to the root, the
scan emits exactly one item, and its real path **equals** the root's real
path (`["root"]`). -/
theorem scanArtifacts_emits_root_counterexample :
    (scanArtifacts fsVercelLoop (fun _ _ => []) ["root"] vercelLoopOptions
        4).map (fun item => (item.path, fsVercelLoop.realpathF item.path))
      = [(["root", ".vercel", "output"], some ["root"])] ∧
    scanRootRealpath fsVercelLoop ["root"] = ["root"] := by
  constructor
  · decide
  · decide

/-! ## Workspace-wins upgrade: C2 -/

theorem lookupA_insertA_self (m : List (FsPath × DiscoveredCandidate))
    (k : FsPath) (v : DiscoveredCandidate) :
    lookupA (insertA m k v) k = some v := by
  induction m with
  | nil => simp [insertA, lookupA]
  | cons hd rest ih =>
    obtain ⟨k', v'⟩ := hd
    unfold insertA
    by_cases hk : k' = k
    · rw [if_pos hk]
      simp [lookupA]
    · rw [if_neg hk]
      unfold lookupA
      rw [if_neg hk]
      exact ih

theorem lookupA_insertA_ne {k' k : FsPath}
    (m : List (FsPath × DiscoveredCandidate)) (v : DiscoveredCandidate)
    (hne : k' ≠ k) : lookupA (insertA m k' v) k = lookupA m k := by
  induction m with
  | nil => simp [insertA, lookupA, hne]
  | cons hd rest ih =>
    obtain ⟨k'', v''⟩ := hd
    unfold insertA
    by_cases hk : k'' = k'
    · rw [if_pos hk]
      unfold lookupA
      rw [if_neg hne, if_neg (hk ▸ hne)]
    · rw [if_neg hk]
      unfold lookupA
      by_cases hk2 : k'' = k
      · rw [if_pos hk2, if_pos hk2]
      · rw [if_neg hk2, if_neg hk2]
        exact ih

theorem wsEntryAt_addCandidate_stable {fs : FS} {root : FsPath}
    {st : ScanState} {k : FsPath} {t : CleanupType} (p : FsPath)
    (md : CandidateMetadata) (hst : WorkspaceEntryAt k t st) :
    WorkspaceEntryAt k t (addCandidate fs root st p md) := by
  obtain ⟨v, hv, hvscope, hvtype⟩ := hst
  unfold addCandidate
  split
  · exact ⟨v, hv, hvscope, hvtype⟩
  · rename_i cp hc
    dsimp only
    by_cases hk : cp.realpath = k
    · rw [hk, hv]
      dsimp only
      have hnc : ¬(v.cleanupScope = CleanupScope.project ∧
          md.cleanupScope = CleanupScope.workspace) := by
        intro h
        rw [hvscope] at h
        cases h.1
      rw [if_neg hnc]
      exact ⟨v, hv, hvscope, hvtype⟩
    · rcases hl : lookupA st.discovered cp.realpath with _ | ex
      · dsimp only
        exact ⟨v, by rw [lookupA_insertA_ne _ _ hk]; exact hv, hvscope, hvtype⟩
      · dsimp only
        by_cases hex : ex.cleanupScope = CleanupScope.project ∧
            md.cleanupScope = CleanupScope.workspace
        · rw [if_pos hex]
          exact ⟨v, by rw [lookupA_insertA_ne _ _ hk]; exact hv, hvscope,
            hvtype⟩
        · rw [if_neg hex]
          exact ⟨v, hv, hvscope, hvtype⟩

theorem wsEntryAt_addCandidate_establish {fs : FS} {root : FsPath}
    {st : ScanState} {k : FsPath} {t : CleanupType} {p : FsPath}
    {md : CandidateMetadata} (hrp : fs.realpathF p = some k)
    (hcont : isContainedPathB root k = true)
    (hscope : md.cleanupScope = .workspace) (htype : md.cleanupType = t)
    (hst : WorkspaceEntryAt k t st ∨ NoWorkspaceAt k st) :
    WorkspaceEntryAt k t (addCandidate fs root st p md) := by
  have hc : toContainedPath fs root p = some ⟨p, k⟩ := by
    unfold toContainedPath
    rw [hrp]
    dsimp only
    rw [if_pos hcont]
  unfold addCandidate
  rw [hc]
  dsimp only
  rcases hl : lookupA st.discovered k with _ | ex
  · dsimp only
    exact ⟨⟨md.cleanupScope, md.cleanupType, p⟩, lookupA_insertA_self _ _ _,
      hscope, htype⟩
  · dsimp only
    by_cases hex : ex.cleanupScope = CleanupScope.project ∧
        md.cleanupScope = CleanupScope.workspace
    · rw [if_pos hex]
      exact ⟨⟨md.cleanupScope, md.cleanupType, p⟩, lookupA_insertA_self _ _ _,
        hscope, htype⟩
    · rw [if_neg hex]
      have hexws : ex.cleanupScope = CleanupScope.workspace := by
        cases hsc : ex.cleanupScope
        · exact absurd ⟨hsc, hscope⟩ hex
        · rfl
      rcases hst with ⟨v, hv, hvscope, hvtype⟩ | hno
      · rw [hl] at hv
        rw [Option.some_inj] at hv
        exact ⟨ex, hl, hexws, hv ▸ hvtype⟩
      · exact absurd hexws (hno ex hl)

theorem wsInv_addCandidate {fs : FS} {root : FsPath} {st : ScanState}
    {k : FsPath} {t : CleanupType} (p : FsPath) (md : CandidateMetadata)
    (hws : md.cleanupScope = .workspace → fs.realpathF p = some k →
      md.cleanupType = t)
    (hst : WorkspaceEntryAt k t st ∨ NoWorkspaceAt k st) :
    WorkspaceEntryAt k t (addCandidate fs root st p md) ∨
      NoWorkspaceAt k (addCandidate fs root st p md) := by
  rcases hst with hws' | hno
  · exact Or.inl (wsEntryAt_addCandidate_stable p md hws')
  · rcases hc : toContainedPath fs root p with _ | cp
    · refine Or.inr ?_
      unfold addCandidate
      rw [hc]
      exact hno
    · obtain ⟨hrp, hcont, hpath⟩ := toContainedPath_elim hc
      by_cases hk : cp.realpath = k
      · by_cases hscope : md.cleanupScope = CleanupScope.workspace
        · exact Or.inl (wsEntryAt_addCandidate_establish (hk ▸ hrp)
            (hk ▸ hcont) hscope (hws hscope (hk ▸ hrp)) (Or.inr hno))
        · refine Or.inr ?_
          unfold addCandidate
          rw [hc]
          dsimp only
          rcases hl : lookupA st.discovered cp.realpath with _ | ex
          · dsimp only
            intro v hv
            rw [hk, lookupA_insertA_self] at hv
            rw [Option.some_inj] at hv
            rw [← hv]
            exact hscope
          · dsimp only
            have hnc : ¬(ex.cleanupScope = CleanupScope.project ∧
                md.cleanupScope = CleanupScope.workspace) :=
              fun h => hscope h.2
            rw [if_neg hnc]
            exact hno
      · refine Or.inr ?_
        rcases addCandidate_discovered_cases fs root st p md with hd |
          ⟨cp', hc', hd⟩
        · intro v hv
          rw [hd] at hv
          exact hno v hv
        · have hcp : cp = cp' := by
            rw [hc] at hc'
            exact Option.some_inj.mp hc'
          intro v hv
          rw [hd, ← hcp, lookupA_insertA_ne _ _ hk] at hv
          exact hno v hv

theorem runAddCandidates_ws_stable {fs : FS} {root : FsPath} {k : FsPath}
    {t : CleanupType} (events : List (FsPath × CandidateMetadata))
    (st : ScanState) (hst : WorkspaceEntryAt k t st) :
    WorkspaceEntryAt k t (runAddCandidates fs root events st) :=
  foldl_preserve (WorkspaceEntryAt k t) _
    (fun a b ha => wsEntryAt_addCandidate_stable b.1 b.2 ha) events st hst

theorem runAddCandidates_ws_aux {fs : FS} {root : FsPath} {k : FsPath}
    {t : CleanupType} :
    ∀ (events : List (FsPath × CandidateMetadata)) (st : ScanState),
    (∃ e ∈ events, fs.realpathF e.1 = some k ∧
      isContainedPathB root k = true ∧ e.2.cleanupScope = .workspace) →
    (∀ e ∈ events, e.2.cleanupScope = .workspace →
      fs.realpathF e.1 = some k → e.2.cleanupType = t) →
    (WorkspaceEntryAt k t st ∨ NoWorkspaceAt k st) →
    WorkspaceEntryAt k t (runAddCandidates fs root events st) := by
  intro events
  induction events with
  | nil =>
    intro st hq _ _
    obtain ⟨e, he, _⟩ := hq
    cases he
  | cons x xs ih =>
    intro st hq hws hst
    have hstep : runAddCandidates fs root (x :: xs) st
        = runAddCandidates fs root xs (addCandidate fs root st x.1 x.2) := rfl
    rw [hstep]
    obtain ⟨e, he, h1e, h2e, h3e⟩ := hq
    rcases List.mem_cons.mp he with rfl | hexs
    · exact runAddCandidates_ws_stable xs _
        (wsEntryAt_addCandidate_establish h1e h2e h3e
          (hws e (List.mem_cons_self _ _) h3e h1e) hst)
    · exact ih _ ⟨e, hexs, h1e, h2e, h3e⟩
        (fun e' he' => hws e' (List.mem_cons_of_mem _ he'))
        (wsInv_addCandidate x.1 x.2
          (fun hs hr => hws x (List.mem_cons_self _ _) hs hr) hst)

/-- C2: over any serialized order of the candidate emissions, if some event
discovers real path `k` under workspace scope (and `k` is contained in the
root), every workspace-scope event for `k` carries cleanup type `t`, and the
starting map has no workspace entry at `k`, then the final map's entry at `k`
has `cleanupScope = workspace` and `cleanupType = t` — workspace wins over
project, and a workspace member's `node_modules` (events of type
`workspaceNodeModules`) ends as `workspace` / `workspace-node-modules`. -/
theorem runAddCandidates_workspace_wins (fs : FS) (root : FsPath)
    (events : List (FsPath × CandidateMetadata)) (st : ScanState)
    (k : FsPath) (t : CleanupType)
    (hq : ∃ e ∈ events, fs.realpathF e.1 = some k ∧
      isContainedPathB root k = true ∧ e.2.cleanupScope = .workspace)
    (hws : ∀ e ∈ events, e.2.cleanupScope = .workspace →
      fs.realpathF e.1 = some k → e.2.cleanupType = t)
    (hinit : NoWorkspaceAt k st) :
    WorkspaceEntryAt k t (runAddCandidates fs root events st) :=
  runAddCandidates_ws_aux events st hq hws (Or.inr hinit)

/-- Witness for C2: a project-scope discovery followed by a workspace-scope
`node_modules` discovery of the same real path ends as a workspace /
workspace-node-modules entry. -/
theorem runAddCandidates_workspace_wins_witness :
    WorkspaceEntryAt ["root"] CleanupType.workspaceNodeModules
      (runAddCandidates fsVercelLoop ["root"]
        [(["root", ".vercel", "output"],
            ⟨CleanupScope.project, CleanupType.artifact⟩),
          (["root", ".vercel", "output"],
            ⟨CleanupScope.workspace, CleanupType.workspaceNodeModules⟩)]
        emptyScanState) :=
  runAddCandidates_workspace_wins fsVercelLoop ["root"] _ emptyScanState
    ["root"] CleanupType.workspaceNodeModules
    ⟨(["root", ".vercel", "output"],
        ⟨CleanupScope.workspace, CleanupType.workspaceNodeModules⟩),
      by decide, by decide, by decide, rfl⟩
    (by decide) (fun v hv => nomatch hv)

/-! ## Artifact emission is depth-independent: C5 -/

/-- C5: in the entries loop, (a) a directory entry whose name is in
`ARTIFACT_NAMES` is handed to `addCandidate` at **every** depth — the result
of the loop step is exactly the `addCandidate` update, with no depth
dependence — whenever the entry survives the containment, dedup and
workspace-subtree guards; and (b) with a finite `maxDepth = d` and
`depth ≥ d`, no entry whatsoever queues a further descent: the depth limit
gates recursion only, never emission. -/
theorem processEntry_artifact_emission_and_depth_gate (fs : FS)
    (cfg : ScanCfg) (scope : CleanupScope) (depth : Nat) (dirPath : FsPath)
    (acc : ScanState × List DeferredCheck × List FsPath) (entry : DirEnt) :
    (∀ cp, entry.isDir = true →
      toContainedPath fs cfg.rootRealpath (dirPath ++ [entry.name])
        = some cp →
      cp.realpath ∉ acc.1.skipPaths →
      ¬(scope = .project ∧ cfg.skipWorkspaceSubtreesInProjectScope = true ∧
        cp.realpath ∈ cfg.workspaceDirectorySet) →
      ARTIFACT_NAMES.contains entry.name = true →
      processEntry fs cfg scope depth dirPath acc entry
        = (addCandidate fs cfg.rootRealpath acc.1 cp.path
            ⟨scope, .artifact⟩, acc.2.1, acc.2.2)) ∧
    (∀ d, cfg.maxDepth = some d → depth ≥ d →
      (processEntry fs cfg scope depth dirPath acc entry).2.2 = acc.2.2) := by
  constructor
  · intro cp hdir hcp hskip hwsskip hname
    unfold processEntry
    rw [hdir]
    rw [if_neg (by decide : ¬(!true) = true)]
    rw [hcp]
    dsimp only
    rw [if_neg hskip, if_neg hwsskip, if_pos hname]
  · intro d hd hdepth
    unfold processEntry
    repeat' split
    all_goals
      first
        | rfl
        | (rename_i hcond
           exact absurd hdepth (by rw [hd] at hcond; simpa using hcond))

/-- Witness for C5: with `maxDepth = 1` and the parent at depth 5, the
`.next` entry is still emitted via `addCandidate`, while the ordinary `sub`
entry queues no descent. -/
theorem processEntry_artifact_emission_and_depth_gate_witness :
    processEntry fsArtifactDemo cfgArtifactDemo CleanupScope.project 5
        ["root"] (emptyScanState, [], []) ⟨".next", true⟩
      = (addCandidate fsArtifactDemo ["root"] emptyScanState
          ["root", ".next"] ⟨CleanupScope.project, CleanupType.artifact⟩,
        [], []) ∧
    (processEntry fsArtifactDemo cfgArtifactDemo CleanupScope.project 5
        ["root"] (emptyScanState, [], []) ⟨"sub", true⟩).2.2 = [] :=
  ⟨(processEntry_artifact_emission_and_depth_gate fsArtifactDemo
      cfgArtifactDemo CleanupScope.project 5 ["root"]
      (emptyScanState, [], []) ⟨".next", true⟩).1
      ⟨["root", ".next"], ["root", ".next"]⟩ rfl (by decide) (by decide)
      (by decide) (by decide),
    (processEntry_artifact_emission_and_depth_gate fsArtifactDemo
      cfgArtifactDemo CleanupScope.project 5 ["root"]
      (emptyScanState, [], []) ⟨"sub", true⟩).2 1 rfl (by decide)⟩

end NextPrune
